import Mathlib

/-!
Shallow embedding of the OOXML structural-repair and validation engine
(`ooxml_fixup.py` and `ooxml_validate.py`) of the judicial-opinion-edit
skill repository, together with proofs of the specification claims.

Attribute values are modelled as `String`, exactly as `minidom.getAttribute`
returns them (the empty string stands for an absent attribute).  Integer
identifiers are parsed with a model of Python `int` and written back with a
model of Python `str`.
-/

namespace OoxmlRepair

/-! ### Decimal strings: models of Python `str(n)` and `int(s)` -/

/-- Decimal digit characters, most significant first, with explicit fuel
(the recursion is on the fuel, so proof-kernel evaluation always reduces;
`natDigits` supplies sufficient fuel). -/
def natDigitsAux : Nat → Nat → List Char
  | 0, _ => []
  | fuel + 1, n =>
    if n < 10 then [Nat.digitChar n]
    else natDigitsAux fuel (n / 10) ++ [Nat.digitChar (n % 10)]

/-- Decimal digit characters of `n`, most significant first.
Models the digit part of Python `str` on a non-negative integer. -/
def natDigits (n : Nat) : List Char := natDigitsAux (n + 1) n

/-- Model of Python `str` on an integer: optional minus sign, then decimal digits. -/
def intStr (n : Int) : String :=
  if n < 0 then ⟨'-' :: natDigits n.natAbs⟩ else ⟨natDigits n.toNat⟩

/-- Decimal value of a digit string. -/
def decVal (l : List Char) : Nat :=
  l.foldl (fun n c => n * 10 + (c.toNat - 48)) 0

/-- Model of Python `int(s)` on the strings a `w:id` attribute takes: an
optional minus sign followed by decimal digits parses to the signed value,
every other string (including the empty string, which `getAttribute` returns
for an absent attribute) raises, i.e. yields `none`.  (Python additionally
tolerates surrounding whitespace and a plus sign; no property proved here
depends on how such strings parse.) -/
def parseInt (s : String) : Option Int :=
  match s.data with
  | [] => none
  | c :: rest =>
    if c = '-' then
      if rest ≠ [] ∧ rest.all Char.isDigit then some (-(decVal rest : Int)) else none
    else if (c :: rest).all Char.isDigit then some ((decVal (c :: rest) : Int))
    else none

/-! ### Data model of the unpacked package

One XML part per field, in the state it has on disk.  A part is `absent`
(the file does not exist), `unparseable` (it exists but `parse_xml` fails),
or `parsed` with its relevant content.  Only the elements and attributes the
two scripts ever read are modelled; `getAttribute` of an absent attribute is
the empty string, so every attribute field is a `String` with `""` standing
for "absent". -/

/-- The annotation element tags scanned in `word/document.xml`
(`BOOKMARK_TAGS`, `COMMENT_DOC_TAGS`, `CHANGE_TAGS` of `ooxml_fixup.py`,
`ANNOTATION_TAGS` of `ooxml_validate.py`). -/
inductive WTag
  | bookmarkStart | bookmarkEnd
  | commentRangeStart | commentRangeEnd | commentReference
  | wIns | wDel | rPrChange | pPrChange | sectPrChange
  | tblPrChange | trPrChange | tcPrChange | tblGridChange
deriving DecidableEq, Repr

/-- An annotation element of `word/document.xml`: its tag and its `w:id`
attribute (raw string; `""` = attribute absent). -/
structure AnnotNode where
  tag : WTag
  wId : String
deriving DecidableEq, Repr

/-- A `w:t` text run of `word/document.xml`: the concatenation of its text
children and its `xml:space` attribute (`""` = attribute absent). -/
structure WtNode where
  text : String
  xmlSpace : String
deriving DecidableEq, Repr

/-- `word/document.xml`: its annotation elements (in document order) and its
`w:t` runs (in document order).  The two element families are disjoint and
every operation iterates them per tag, so keeping them in two lists is
faithful to `getElementsByTagName` traversal. -/
structure DocumentXml where
  annots : List AnnotNode
  wts : List WtNode
deriving DecidableEq, Repr

/-- A `w:p` paragraph inside a `w:comment`, with its `w14:paraId` and legacy
`w:paraId` attributes. -/
structure CommentPara where
  w14ParaId : String
  wParaId : String
deriving DecidableEq, Repr

/-- A `w:comment` entry of `word/comments.xml`: its `w:id` attribute and its
`w:p` descendants. -/
structure WComment where
  wId : String
  paras : List CommentPara
deriving DecidableEq, Repr

/-- `word/comments.xml`. -/
structure CommentsXml where
  comments : List WComment
deriving DecidableEq, Repr

/-- A `w15:commentEx` entry of `word/commentsExtended.xml`. -/
structure CommentExEntry where
  paraId : String
  durableId : String
deriving DecidableEq, Repr

/-- A `w16cid:commentId` entry of `word/commentsIds.xml`. -/
structure CommentIdEntry where
  paraId : String
deriving DecidableEq, Repr

/-- A `w16cex:commentExtensible` entry of `word/commentsExtensible.xml`. -/
structure CommentExtEntry where
  durableId : String
deriving DecidableEq, Repr

/-- An entry of `[Content_Types].xml`: an `Override` node (keyed by
`PartName`) or a `Default` node (keyed by `Extension`), in document order. -/
inductive CtEntry
  | override (partName : String)
  | dflt (extName : String)
deriving DecidableEq, Repr

/-- A `Relationship` node of a `.rels` manifest. -/
structure RelEntry where
  relType : String
  relTarget : String
deriving DecidableEq, Repr

/-- The on-disk state of one part: the file is absent, exists but is not
well-formed XML, or parses to the given content. -/
inductive Part (α : Type)
  | absent
  | unparseable
  | parsed (content : α)
deriving DecidableEq, Repr

/-- `True` when the file exists on disk (`Path.exists`), whether or not it parses. -/
def Part.fileExists : Part α → Bool
  | .absent => false
  | _ => true

/-- The unpacked package directory: each fixed-layout part, plus every
`.rels` manifest discovered by `rglob` (path with its content, in discovery
order; distinct files have distinct paths). -/
structure Package where
  document : Part DocumentXml
  comments : Part CommentsXml
  commentsExtended : Part (List CommentExEntry)
  commentsIds : Part (List CommentIdEntry)
  commentsExtensible : Part (List CommentExtEntry)
  contentTypes : Part (List CtEntry)
  rels : List (String × Part (List RelEntry))
deriving DecidableEq, Repr

/-- Name of a part file, used to record `write_xml` calls. -/
inductive PartFile
  | document | comments | commentsExtended | commentsIds | commentsExtensible
  | contentTypes | rel (path : String)
deriving DecidableEq, Repr

/-! ### Identifier index (`collect_w_ids`) -/

/-- `BOOKMARK_TAGS`. -/
def BOOKMARK_TAGS : List WTag := [.bookmarkStart, .bookmarkEnd]

/-- `COMMENT_DOC_TAGS`. -/
def COMMENT_DOC_TAGS : List WTag := [.commentRangeStart, .commentRangeEnd, .commentReference]

/-- `CHANGE_TAGS`. -/
def CHANGE_TAGS : List WTag := [.wIns, .wDel, .rPrChange, .pPrChange, .sectPrChange,
  .tblPrChange, .trPrChange, .tcPrChange, .tblGridChange]

/-- `get_elements_by_tag` restricted to annotation nodes: all elements with
the given tag, in document order. -/
def byTag (annots : List AnnotNode) (t : WTag) : List AnnotNode :=
  annots.filter (fun a => a.tag = t)

/-- The id values collected by `collect_w_ids(doc, tags)`, with multiplicity,
in its iteration order (tag by tag, then element by element).  An element
whose `w:id` is absent (`if not val: continue`) or fails `int(val)` is
skipped.  The dict built by `collect_w_ids` has exactly these values as keys
and, for key `i`, exactly the contributing elements as its node list, so the
key set is `(collectWIds ..).toFinset` and per-id node counts are recovered
by filtering `annots` directly. -/
def collectWIds (annots : List AnnotNode) (tags : List WTag) : List Int :=
  tags.flatMap fun t => (byTag annots t).filterMap fun a => parseInt a.wId

/-- The set of ids of one annotation kind (`set(..._ids.keys())`). -/
def idSet (annots : List AnnotNode) (tags : List WTag) : Finset Int :=
  (collectWIds annots tags).toFinset

/-! ### Phase A: ID deconfliction (`deconflict_ids`) -/

/-- `max(values)` over a non-empty collection, as a fold with the first
element as the accumulator. -/
def listMax : List Int → Int → Int
  | [], acc => acc
  | i :: rest, acc => listMax rest (max acc i)

/-- The old→new remapping built by the
`for old_id in sorted(kind_id_set): if collides: remap[old_id] = next_id; next_id += 1`
loops: given the ascending list of a kind's ids, the collision test, and the
current counter, returns the remap as an association list (in assignment
order) together with the final counter. -/
def assignFresh (coll : Int → Bool) : List Int → Int → List (Int × Int) × Int
  | [], nxt => ([], nxt)
  | i :: rest, nxt =>
    if coll i then
      let r := assignFresh coll rest (nxt + 1)
      ((i, nxt) :: r.1, r.2)
    else assignFresh coll rest nxt

/-- Dictionary lookup in the old→new remap (`old_id in remap` / `remap[old_id]`). -/
def lookupRemap (m : List (Int × Int)) (i : Int) : Option Int :=
  (m.find? fun p => p.1 == i).map (·.2)

/-- The renumbering loop over `document.xml`
(`for tag, el in kind_ids[old_id]: el.setAttribute("w:id", str(new_id))`,
for every `old_id` in the remap): every element of one of the given tags
whose parsed id is a key of the remap gets its `w:id` attribute set to the
decimal string of the fresh id; every other element is untouched. -/
def renumberAnnot (tags : List WTag) (m : List (Int × Int)) (a : AnnotNode) : AnnotNode :=
  if a.tag ∈ tags then
    match parseInt a.wId with
    | some o =>
      match lookupRemap m o with
      | some n => { a with wId := intStr n }
      | none => a
    | none => a
  else a

/-- `True` exactly when the renumbering loop rewrites the element. -/
def isRenumbered (tags : List WTag) (m : List (Int × Int)) (a : AnnotNode) : Bool :=
  decide (a.tag ∈ tags) &&
    (match parseInt a.wId with
     | some o => (lookupRemap m o).isSome
     | none => false)

/-- `summary["..._renumbered"]` increments once per rewritten element. -/
def countRenumbered (annots : List AnnotNode) (tags : List WTag) (m : List (Int × Int)) : Nat :=
  (annots.filter (isRenumbered tags m)).length

/-- The `comments.xml` mirroring loop: every `w:comment` whose `w:id` parses
to a key of the comment remap gets the fresh id; others are untouched. -/
def renumberComments (c : CommentsXml) (m : List (Int × Int)) : CommentsXml :=
  { comments := c.comments.map fun ce =>
      match parseInt ce.wId with
      | some o =>
        match lookupRemap m o with
        | some n => { ce with wId := intStr n }
        | none => ce
      | none => ce }

/-- Per-phase summary of `deconflict_ids`. -/
structure DeconflictSummary where
  commentsRenumbered : Nat
  changesRenumbered : Nat
deriving DecidableEq, Repr

/-- `has_collision` of `deconflict_ids`: truthiness of the three pairwise
intersections of the per-kind id sets. -/
def hasCollision (annots : List AnnotNode) : Bool :=
  let bIds := collectWIds annots BOOKMARK_TAGS
  let cIds := collectWIds annots COMMENT_DOC_TAGS
  let chIds := collectWIds annots CHANGE_TAGS
  cIds.any (fun i => bIds.contains i) || chIds.any (fun i => bIds.contains i) ||
    chIds.any (fun i => cIds.contains i)

/-- `comment_id_remap`: fresh ids, starting at the given counter, for every
comment-kind id (taken in ascending order of the deduplicated id set,
`sorted(comment_id_set)`) that collides with the bookmark or change kind. -/
def commentRemap (annots : List AnnotNode) (startId : Int) : List (Int × Int) × Int :=
  let bIds := collectWIds annots BOOKMARK_TAGS
  let chIds := collectWIds annots CHANGE_TAGS
  assignFresh (fun i => bIds.contains i || chIds.contains i)
    (List.insertionSort (· ≤ ·) (collectWIds annots COMMENT_DOC_TAGS).dedup) startId

/-- `change_id_remap`: fresh ids for every change-kind id that collides with
the bookmark or comment kind — the comment set checked here is the one
collected before any renumbering (`comment_id_set` is never rebuilt). -/
def changeRemap (annots : List AnnotNode) (startId : Int) : List (Int × Int) × Int :=
  let bIds := collectWIds annots BOOKMARK_TAGS
  let cIds := collectWIds annots COMMENT_DOC_TAGS
  assignFresh (fun i => bIds.contains i || cIds.contains i)
    (List.insertionSort (· ≤ ·) (collectWIds annots CHANGE_TAGS).dedup) startId

/-- `deconflict_ids(unpacked_dir)`: renumber comment and tracked-change ids
that collide with another kind.  Returns the package as left on disk, the
summary, and the list of `write_xml` calls made. -/
def deconflictIds (p : Package) : Package × DeconflictSummary × List PartFile :=
  match p.document with
  | .absent => (p, ⟨0, 0⟩, [])
  | .unparseable => (p, ⟨0, 0⟩, [])
  | .parsed d =>
    match collectWIds d.annots (BOOKMARK_TAGS ++ COMMENT_DOC_TAGS ++ CHANGE_TAGS) with
    | [] => (p, ⟨0, 0⟩, [])
    | i0 :: restIds =>
      if hasCollision d.annots then
        let cRemap := commentRemap d.annots (listMax restIds i0 + 1)
        let chRemap := changeRemap d.annots cRemap.2
        let newAnnots := (d.annots.map (renumberAnnot COMMENT_DOC_TAGS cRemap.1)).map
          (renumberAnnot CHANGE_TAGS chRemap.1)
        let d' : DocumentXml := { annots := newAnnots, wts := d.wts }
        let commentsMirrored :=
          (match p.comments with | .parsed _ => true | _ => false) && !cRemap.1.isEmpty
        let comments' := match p.comments with
          | .parsed c => if cRemap.1.isEmpty then Part.parsed c
                         else Part.parsed (renumberComments c cRemap.1)
          | other => other
        (⟨Part.parsed d', comments', p.commentsExtended, p.commentsIds,
            p.commentsExtensible, p.contentTypes, p.rels⟩,
         ⟨countRenumbered d.annots COMMENT_DOC_TAGS cRemap.1,
          countRenumbered d.annots CHANGE_TAGS chRemap.1⟩,
         [PartFile.document] ++ (if commentsMirrored then [PartFile.comments] else []))
      else (p, ⟨0, 0⟩, [])

/-! ### Phase B: relationship dedup (`dedup_relationships`) -/

/-- The two dedup loops over `[Content_Types].xml`: walk the entries once,
removing each `Override` whose `PartName` was already seen among `Override`s
and each `Default` whose `Extension` was already seen among `Default`s
(the script runs the two loops sequentially; they touch disjoint node
families and removal preserves order, so one walk produces the same list and
the same total count).  Returns surviving entries and the removed count. -/
def dedupCt : List CtEntry → List String → List String → List CtEntry × Nat
  | [], _, _ => ([], 0)
  | .override pn :: rest, seenO, seenD =>
    if pn ∈ seenO then
      let r := dedupCt rest seenO seenD
      (r.1, r.2 + 1)
    else
      let r := dedupCt rest (pn :: seenO) seenD
      (.override pn :: r.1, r.2)
  | .dflt en :: rest, seenO, seenD =>
    if en ∈ seenD then
      let r := dedupCt rest seenO seenD
      (r.1, r.2 + 1)
    else
      let r := dedupCt rest seenO (en :: seenD)
      (.dflt en :: r.1, r.2)

/-- The dedup loop over one `.rels` manifest: remove each `Relationship`
after the first with the same `(Type, Target)` pair. -/
def dedupRels : List RelEntry → List (String × String) → List RelEntry × Nat
  | [], _ => ([], 0)
  | e :: rest, seen =>
    if (e.relType, e.relTarget) ∈ seen then
      let r := dedupRels rest seen
      (r.1, r.2 + 1)
    else
      let r := dedupRels rest ((e.relType, e.relTarget) :: seen)
      (e :: r.1, r.2)

/-- The `for rels_path in unpacked_dir.rglob("*.rels")` loop: dedup each
parseable manifest, write it back only if something was removed, and sum the
removed counts.  Returns the manifests as left on disk, the total removed,
and the `write_xml` calls. -/
def dedupRelsAll : List (String × Part (List RelEntry)) →
    List (String × Part (List RelEntry)) × Nat × List PartFile
  | [] => ([], 0, [])
  | (path, filePart) :: rest =>
    let r := dedupRelsAll rest
    match filePart with
    | .parsed l =>
      let d := dedupRels l []
      if d.2 > 0 then ((path, .parsed d.1) :: r.1, d.2 + r.2.1, PartFile.rel path :: r.2.2)
      else ((path, filePart) :: r.1, r.2.1, r.2.2)
    | _ => ((path, filePart) :: r.1, r.2.1, r.2.2)

/-- Per-phase summary of `dedup_relationships`. -/
structure DedupSummary where
  contentTypesRemoved : Nat
  relsRemoved : Nat
deriving DecidableEq, Repr

/-- The `[Content_Types].xml` block of `dedup_relationships`: dedup a
parseable manifest, write it back only when something was removed. -/
def contentTypesStep (part : Part (List CtEntry)) : Part (List CtEntry) × Nat × List PartFile :=
  match part with
  | .parsed l =>
    let r := dedupCt l [] []
    if r.2 > 0 then (.parsed r.1, r.2, [PartFile.contentTypes])
    else (part, 0, [])
  | other => (other, 0, [])

/-- `dedup_relationships(unpacked_dir)`. -/
def dedupRelationships (p : Package) : Package × DedupSummary × List PartFile :=
  let ctStep := contentTypesStep p.contentTypes
  let relStep := dedupRelsAll p.rels
  (⟨p.document, p.comments, p.commentsExtended, p.commentsIds, p.commentsExtensible,
      ctStep.1, relStep.1⟩,
   ⟨ctStep.2.1, relStep.2.1⟩,
   ctStep.2.2 ++ relStep.2.2)

/-! ### Phase C: orphaned comment artifacts (`clean_orphaned_comments`) -/

/-- The effective paraId of a comment paragraph:
`p_el.getAttribute("w14:paraId") or p_el.getAttribute("w:paraId")`. -/
def effParaId (pp : CommentPara) : String :=
  if pp.w14ParaId ≠ "" then pp.w14ParaId else pp.wParaId

/-- `valid_para_ids`: every non-empty effective paraId of every paragraph of
every `w:comment` (collected into a set; only membership is ever used, so a
list with `∈` is the embedding). -/
def validParaIds (c : CommentsXml) : List String :=
  (c.comments.flatMap fun ce => ce.paras.map effParaId).filter (fun s => s ≠ "")

/-- The `commentsExtended.xml` loop: remove entries whose non-empty paraId is
not valid; for kept entries with a valid non-empty paraId, collect their
non-empty `w15:durableId` into the valid-durableId set.  Returns survivors,
removed count, and the collected durable ids. -/
def cleanExtended (valid : List String) :
    List CommentExEntry → List CommentExEntry × Nat × List String
  | [] => ([], 0, [])
  | e :: rest =>
    let r := cleanExtended valid rest
    if e.paraId ≠ "" ∧ e.paraId ∉ valid then (r.1, r.2.1 + 1, r.2.2)
    else if e.paraId ≠ "" ∧ e.paraId ∈ valid then
      if e.durableId ≠ "" then (e :: r.1, r.2.1, e.durableId :: r.2.2)
      else (e :: r.1, r.2.1, r.2.2)
    else (e :: r.1, r.2.1, r.2.2)

/-- The `commentsIds.xml` loop: remove entries whose non-empty paraId is not valid. -/
def cleanIds (valid : List String) : List CommentIdEntry → List CommentIdEntry × Nat
  | [] => ([], 0)
  | e :: rest =>
    let r := cleanIds valid rest
    if e.paraId ≠ "" ∧ e.paraId ∉ valid then (r.1, r.2 + 1)
    else (e :: r.1, r.2)

/-- The `commentsExtensible.xml` loop: remove entries with a non-empty
durableId not in the valid-durableId set, but only when that set is
non-empty (`if durable_id and durable_ids_from_valid and durable_id not in
durable_ids_from_valid`). -/
def cleanExtensible (validDur : List String) :
    List CommentExtEntry → List CommentExtEntry × Nat
  | [] => ([], 0)
  | e :: rest =>
    let r := cleanExtensible validDur rest
    if e.durableId ≠ "" ∧ validDur ≠ [] ∧ e.durableId ∉ validDur then (r.1, r.2 + 1)
    else (e :: r.1, r.2)

/-- Per-phase summary of `clean_orphaned_comments`. -/
structure OrphanSummary where
  orphansRemoved : Nat
deriving DecidableEq, Repr

/-- The `commentsExtended.xml` block of `clean_orphaned_comments`: clean a
parseable part, write it back only when entries were removed, and hand the
collected valid-durableId set onward. -/
def extendedStep (valid : List String) (part : Part (List CommentExEntry)) :
    Part (List CommentExEntry) × Nat × List String × List PartFile :=
  match part with
  | .parsed l =>
    let r := cleanExtended valid l
    if r.2.1 > 0 then (.parsed r.1, r.2.1, r.2.2, [PartFile.commentsExtended])
    else (part, 0, r.2.2, [])
  | other => (other, 0, [], [])

/-- The `commentsIds.xml` block of `clean_orphaned_comments`. -/
def idsStep (valid : List String) (part : Part (List CommentIdEntry)) :
    Part (List CommentIdEntry) × Nat × List PartFile :=
  match part with
  | .parsed l =>
    let r := cleanIds valid l
    if r.2 > 0 then (.parsed r.1, r.2, [PartFile.commentsIds])
    else (part, 0, [])
  | other => (other, 0, [])

/-- The `commentsExtensible.xml` block of `clean_orphaned_comments`. -/
def extensibleStep (validDur : List String) (part : Part (List CommentExtEntry)) :
    Part (List CommentExtEntry) × Nat × List PartFile :=
  match part with
  | .parsed l =>
    let r := cleanExtensible validDur l
    if r.2 > 0 then (.parsed r.1, r.2, [PartFile.commentsExtensible])
    else (part, 0, [])
  | other => (other, 0, [])

/-- `clean_orphaned_comments(unpacked_dir)`: a no-op when `comments.xml` is
absent or unparseable; otherwise process the three extended-metadata parts,
writing each back only when at least one entry was removed from it. -/
def cleanOrphanedComments (p : Package) : Package × OrphanSummary × List PartFile :=
  match p.comments with
  | .absent => (p, ⟨0⟩, [])
  | .unparseable => (p, ⟨0⟩, [])
  | .parsed c =>
    let valid := validParaIds c
    let ext := extendedStep valid p.commentsExtended
    let ids := idsStep valid p.commentsIds
    let extensible := extensibleStep ext.2.2.1 p.commentsExtensible
    (⟨p.document, p.comments, ext.1, ids.1, extensible.1,
        p.contentTypes, p.rels⟩,
     ⟨ext.2.1 + ids.2.1 + extensible.2.1⟩,
     ext.2.2.2 ++ ids.2.2 ++ extensible.2.2)

/-! ### Phase D: `xml:space="preserve"` (`fix_xml_space`) -/

/-- Model of Python `str.strip()`: drop leading and trailing whitespace
(`Char.isWhitespace` matches `str.isspace` on the ASCII whitespace that
occurs in OOXML text; no property proved here depends on more exotic
whitespace). -/
def pyStrip (s : String) : String :=
  ⟨(((s.data.dropWhile Char.isWhitespace).reverse.dropWhile Char.isWhitespace).reverse)⟩

/-- `True` when the `w:t` run needs the marker: non-empty text with leading
or trailing whitespace (`text != text.strip()`) and no `xml:space` attribute. -/
def needsSpace (wt : WtNode) : Bool :=
  wt.text ≠ "" && wt.text ≠ pyStrip wt.text && wt.xmlSpace == ""

/-- Add the marker where needed. -/
def addSpace (wt : WtNode) : WtNode :=
  if needsSpace wt then { wt with xmlSpace := "preserve" } else wt

/-- Per-phase summary of `fix_xml_space`. -/
structure SpaceSummary where
  spaceAttrsAdded : Nat
deriving DecidableEq, Repr

/-- `fix_xml_space(unpacked_dir)`: add `xml:space="preserve"` to every `w:t`
that needs it; write `document.xml` back only if at least one was added. -/
def fixXmlSpace (p : Package) : Package × SpaceSummary × List PartFile :=
  match p.document with
  | .absent => (p, ⟨0⟩, [])
  | .unparseable => (p, ⟨0⟩, [])
  | .parsed d =>
    let added := (d.wts.filter needsSpace).length
    if added > 0 then
      (⟨Part.parsed ⟨d.annots, d.wts.map addSpace⟩, p.comments, p.commentsExtended,
          p.commentsIds, p.commentsExtensible, p.contentTypes, p.rels⟩,
       ⟨added⟩, [PartFile.document])
    else (p, ⟨0⟩, [])

/-! ### The full repair pipeline (`main` of `ooxml_fixup.py`) -/

/-- The complete change summary printed by `main`. -/
structure FixupSummary where
  commentsRenumbered : Nat
  changesRenumbered : Nat
  contentTypesRemoved : Nat
  relsRemoved : Nat
  orphansRemoved : Nat
  spaceAttrsAdded : Nat
deriving DecidableEq, Repr

/-- `total_changes`. -/
def FixupSummary.total (s : FixupSummary) : Nat :=
  s.commentsRenumbered + s.changesRenumbered + s.contentTypesRemoved +
    s.relsRemoved + s.orphansRemoved + s.spaceAttrsAdded

/-- The all-zero summary. -/
def FixupSummary.zero : FixupSummary := ⟨0, 0, 0, 0, 0, 0⟩

/-- `main`: run the four repair phases in order over the package directory
and aggregate their counters. -/
def runFixup (p : Package) : Package × FixupSummary :=
  let a := deconflictIds p
  let b := dedupRelationships a.1
  let c := cleanOrphanedComments b.1
  let d := fixXmlSpace c.1
  (d.1, ⟨a.2.1.commentsRenumbered, a.2.1.changesRenumbered,
    b.2.1.contentTypesRemoved, b.2.1.relsRemoved,
    c.2.1.orphansRemoved, d.2.1.spaceAttrsAdded⟩)

/-! ### Validator (`ooxml_validate.py`) -/

/-- `ANNOTATION_TAGS` of the validator (same fourteen tags, same order). -/
def ANNOTATION_TAGS : List WTag :=
  [.bookmarkStart, .bookmarkEnd,
   .commentRangeStart, .commentRangeEnd, .commentReference,
   .wIns, .wDel, .rPrChange, .pPrChange, .sectPrChange,
   .tblPrChange, .trPrChange, .tcPrChange, .tblGridChange]

/-- The kind classification used by `check_unique_ids`:
bookmark / comment / change. -/
inductive AnnotKind
  | bookmark | comment | change
deriving DecidableEq, Repr

/-- Tag → kind, exactly as classified in `check_unique_ids`. -/
def kindOf (t : WTag) : AnnotKind :=
  match t with
  | .bookmarkStart | .bookmarkEnd => .bookmark
  | .commentRangeStart | .commentRangeEnd | .commentReference => .comment
  | _ => .change

/-- The raw (string) id values of one tag, skipping empty values
(`if not val: continue`); note the validator does NOT attempt `int(val)`. -/
def collectIdStrs (annots : List AnnotNode) (t : WTag) : List String :=
  ((byTag annots t).map AnnotNode.wId).filter (fun v => v ≠ "")

/-- `check_unique_ids`: the `seen` dict maps each non-empty id string to the
tags carrying it (dict keys in first-insertion order while iterating
`ANNOTATION_TAGS`); an issue is emitted for every id carried by more than
one tag spanning more than one kind. -/
def checkUniqueIds (p : Package) : List (String × List WTag) :=
  match p.document with
  | .parsed d =>
    let pairs := ANNOTATION_TAGS.flatMap fun t => (collectIdStrs d.annots t).map (fun v => (v, t))
    let keys := (pairs.map Prod.fst).dedup
    (keys.map fun v => (v, (pairs.filter (fun q => q.1 = v)).map Prod.snd)).filter
      fun kt => kt.2.length > 1 && ((kt.2.map kindOf).dedup.length > 1)
  | _ => []

/-- One `comment_consistency` issue, by the four message categories of
`check_comment_consistency`. -/
inductive CIssue
  | startNoEnd (v : String)
  | startNoRef (v : String)
  | endNoStart (v : String)
  | refNoStart (v : String)
deriving DecidableEq, Repr

/-- `check_comment_consistency`: collect the non-empty id strings of the
range-start, range-end and reference elements into three sets and report the
four difference sets (set iteration order is unspecified in Python; every
property proved below is order-insensitive, stated through membership). -/
def checkCommentConsistency (p : Package) : List CIssue :=
  match p.document with
  | .parsed d =>
    let starts := (collectIdStrs d.annots .commentRangeStart).dedup
    let ends := (collectIdStrs d.annots .commentRangeEnd).dedup
    let refs := (collectIdStrs d.annots .commentReference).dedup
    (starts.filter (fun v => v ∉ ends)).map .startNoEnd ++
    (starts.filter (fun v => v ∉ refs)).map .startNoRef ++
    (ends.filter (fun v => v ∉ starts)).map .endNoStart ++
    (refs.filter (fun v => v ∉ starts)).map .refNoStart
  | _ => []

/-- One `comment_artifacts` issue of `check_comment_artifacts`. -/
inductive AIssue
  | extOrphan (paraId : String)
  | idsOrphan (paraId : String)
  | missingFromExt (paraId : String)
  | missingFromIds (paraId : String)
deriving DecidableEq, Repr

/-- `check_comment_artifacts`: empty when `comments.xml` is absent or
unparseable; otherwise the two orphan directions plus, for each metadata
file that exists on disk (even unparseable), the reverse direction. -/
def checkCommentArtifacts (p : Package) : List AIssue :=
  match p.comments with
  | .absent => []
  | .unparseable => []
  | .parsed c =>
    let commentParaIds := (validParaIds c).dedup
    let extParaIds := (match p.commentsExtended with
      | .parsed l => ((l.map CommentExEntry.paraId).filter (fun v => v ≠ "")).dedup
      | _ => [])
    let idsParaIds := (match p.commentsIds with
      | .parsed l => ((l.map CommentIdEntry.paraId).filter (fun v => v ≠ "")).dedup
      | _ => [])
    (extParaIds.filter (fun v => v ∉ commentParaIds)).map .extOrphan ++
    (idsParaIds.filter (fun v => v ∉ commentParaIds)).map .idsOrphan ++
    (if p.commentsExtended.fileExists then
      (commentParaIds.filter (fun v => v ∉ extParaIds)).map .missingFromExt
     else []) ++
    (if p.commentsIds.fileExists then
      (commentParaIds.filter (fun v => v ∉ idsParaIds)).map .missingFromIds
     else [])

/-! ### Derived views used in the claim statements -/

/-- The id an element carries after a renumbering pass: its fresh id when it
is a key of the remap, its old id otherwise. -/
def applyRemap (m : List (Int × Int)) (o : Int) : Int := (lookupRemap m o).getD o

/-- The annotation elements of the primary document part (empty when the
part is absent or unparseable). -/
def docAnnots (p : Package) : List AnnotNode :=
  match p.document with
  | .parsed d => d.annots
  | _ => []

/-- The `w:t` runs of the primary document part. -/
def docWts (p : Package) : List WtNode :=
  match p.document with
  | .parsed d => d.wts
  | _ => []

/-- The identifier set of one annotation kind of a package's document. -/
def kindIds (p : Package) (tags : List WTag) : Finset Int := idSet (docAnnots p) tags

/-- The durable ids reachable from a live comment through the
paraId → commentsExtended → durableId chain: the join keys of
`commentsExtensible` that resolve to a live comment. -/
def liveDurableIds (p : Package) : List String :=
  match p.comments, p.commentsExtended with
  | .parsed c, .parsed l =>
    l.filterMap fun e =>
      if e.paraId ≠ "" ∧ e.paraId ∈ validParaIds c ∧ e.durableId ≠ "" then some e.durableId
      else none
  | _, _ => []

/-- `True` on an `Override` node with the given `PartName`. -/
def isOverrideKey (k : String) : CtEntry → Bool
  | .override pn => pn == k
  | .dflt _ => false

/-- `True` on a `Default` node with the given `Extension`. -/
def isDefaultKey (k : String) : CtEntry → Bool
  | .dflt en => en == k
  | .override _ => false

/-- `True` on a `Relationship` node with the given `(Type, Target)` pair. -/
def isRelKey (k : String × String) (e : RelEntry) : Bool :=
  (e.relType, e.relTarget) == k

/-- What one `.rels` file becomes on disk after the dedup phase: rewritten to
its deduped entry list when at least one entry was removed, untouched
otherwise (including unparseable and non-existent files). -/
def relFileResult (pr : String × Part (List RelEntry)) : String × Part (List RelEntry) :=
  match pr.2 with
  | Part.parsed l =>
    if (dedupRels l []).2 > 0 then (pr.1, Part.parsed (dedupRels l []).1) else pr
  | _ => pr

/-- The total `rels_removed` counter: the sum, over the parseable `.rels`
files, of the number of duplicate `Relationship` nodes each contains. -/
def relsRemovedTotal (rs : List (String × Part (List RelEntry))) : Nat :=
  (rs.map (fun pr => match pr.2 with
    | Part.parsed l => (dedupRels l []).2
    | _ => 0)).sum

/-! ### Concrete packages used as witnesses and counterexamples -/

/-- A document carrying a comment-range-start and a tracked insertion that
share id 5, with no bookmarks. -/
def clashDoc : DocumentXml := ⟨[⟨.commentRangeStart, "5"⟩, ⟨.wIns, "5"⟩], []⟩

/-- A package whose only part is `clashDoc`. -/
def clashPkg : Package := ⟨.parsed clashDoc, .absent, .absent, .absent, .absent, .absent, []⟩

/-- `clashDoc` plus a parseable `comments.xml` that contains no comments. -/
def clashPkgWithComments : Package :=
  ⟨.parsed clashDoc, .parsed ⟨[]⟩, .absent, .absent, .absent, .absent, []⟩

/-- `comments.xml` parses with no comments; `commentsExtensible.xml` has one
entry with durableId `"D"`; `commentsExtended.xml` is absent. -/
def extensiblePkg : Package :=
  ⟨.absent, .parsed ⟨[]⟩, .absent, .absent, .parsed [⟨"D"⟩], .absent, []⟩

/-- A document whose only annotation is a comment-range-end with id "1". -/
def endOnlyPkg : Package :=
  ⟨.parsed ⟨[⟨.commentRangeEnd, "1"⟩], []⟩, .absent, .absent, .absent, .absent, .absent, []⟩

/-- The non-integer id "abc" on both a bookmark and a tracked insertion. -/
def abcPkg : Package :=
  ⟨.parsed ⟨[⟨.bookmarkStart, "abc"⟩, ⟨.wIns, "abc"⟩], []⟩,
    .absent, .absent, .absent, .absent, .absent, []⟩

/-- `comments.xml` is absent while `commentsExtended.xml` has an entry with
paraId "X" that can resolve to nothing. -/
def orphanNoCommentsPkg : Package :=
  ⟨.absent, .absent, .parsed [⟨"X", "DX"⟩], .absent, .absent, .absent, []⟩

/-- A manifest with a duplicated `Override` and a `.rels` file with a
duplicated `(Type, Target)` pair. -/
def dupCtPkg : Package :=
  ⟨.absent, .absent, .absent, .absent, .absent,
    .parsed [.override "a", .override "a", .dflt "x"],
    [("word/_rels/document.xml.rels", .parsed [⟨"T", "G"⟩, ⟨"T", "G"⟩])]⟩

/-- One live comment whose paragraph carries paraId "P1". -/
def cClean : CommentsXml := ⟨[⟨"5", [⟨"P1", ""⟩]⟩]⟩

/-- `cClean` plus a `commentsExtended.xml` holding one valid entry (paraId
"P1") and one orphan (paraId "P2"). -/
def orphanCleanPkg : Package :=
  ⟨.absent, .parsed cClean, .parsed [⟨"P1", "D1"⟩, ⟨"P2", "D2"⟩],
    .absent, .absent, .absent, []⟩

/-! ### Lemmas: decimal strings -/

theorem digitChar_isDigit {d : Nat} (h : d < 10) : (Nat.digitChar d).isDigit = true := by
  interval_cases d <;> decide

theorem digitChar_toNat {d : Nat} (h : d < 10) : (Nat.digitChar d).toNat - 48 = d := by
  interval_cases d <;> decide

theorem natDigitsAux_ne_nil {fuel n : Nat} (h : n < fuel) : natDigitsAux fuel n ≠ [] := by
  cases fuel with
  | zero => omega
  | succ fuel =>
    rw [natDigitsAux]
    split <;> simp

theorem natDigits_ne_nil (n : Nat) : natDigits n ≠ [] :=
  natDigitsAux_ne_nil (Nat.lt_succ_self n)

theorem natDigitsAux_all_isDigit {fuel n : Nat} (h : n < fuel) :
    (natDigitsAux fuel n).all Char.isDigit = true := by
  induction fuel generalizing n with
  | zero => omega
  | succ fuel ih =>
    rw [natDigitsAux]
    split
    · next hn => simp [digitChar_isDigit hn]
    · next hn =>
      have hdiv : n / 10 < fuel := by omega
      simp only [List.all_append, ih hdiv, Bool.true_and, List.all_cons, List.all_nil,
        Bool.and_true]
      exact digitChar_isDigit (Nat.mod_lt _ (by omega))

theorem natDigits_all_isDigit (n : Nat) : (natDigits n).all Char.isDigit = true :=
  natDigitsAux_all_isDigit (Nat.lt_succ_self n)

theorem natDigitsAux_foldl {fuel n : Nat} (h : n < fuel) (a : Nat) :
    (natDigitsAux fuel n).foldl (fun n c => n * 10 + (c.toNat - 48)) a =
      a * 10 ^ (natDigitsAux fuel n).length + n := by
  induction fuel generalizing n a with
  | zero => omega
  | succ fuel ih =>
    rw [natDigitsAux]
    split
    · next hn => simp [digitChar_toNat hn]
    · next hn =>
      have hdiv : n / 10 < fuel := by omega
      simp only [List.foldl_append, List.foldl_cons, List.foldl_nil, List.length_append,
        List.length_cons, List.length_nil, ih hdiv]
      rw [digitChar_toNat (Nat.mod_lt _ (by omega))]
      have hnm : n / 10 * 10 + n % 10 = n := by omega
      ring_nf
      omega

theorem decVal_natDigits (n : Nat) : decVal (natDigits n) = n := by
  have := natDigitsAux_foldl (Nat.lt_succ_self n) 0
  simpa [decVal, natDigits] using this

/-- `int(str(n)) = n`: the round trip through the attribute string is the identity. -/
theorem parseInt_intStr (n : Int) : parseInt (intStr n) = some n := by
  by_cases hn : n < 0
  · have hstr : (intStr n).data = '-' :: natDigits n.natAbs := by
      simp [intStr, hn]
    have hne : natDigits n.natAbs ≠ [] := natDigits_ne_nil _
    rw [parseInt, hstr]
    simp only [if_pos rfl, hne, ne_eq, not_false_iff, natDigits_all_isDigit, and_self, if_true,
      true_and, if_pos]
    rw [decVal_natDigits]
    congr 1
    omega
  · have hstr : (intStr n).data = natDigits n.toNat := by
      simp [intStr, hn]
    have hne : natDigits n.toNat ≠ [] := natDigits_ne_nil _
    rw [parseInt]
    cases hd : natDigits n.toNat with
    | nil => exact absurd hd hne
    | cons c rest =>
      rw [hstr, hd]
      have hall : (c :: rest).all Char.isDigit = true := by
        rw [← hd]; exact natDigits_all_isDigit _
      have hcdig : c.isDigit = true := by
        simp only [List.all_cons, Bool.and_eq_true] at hall
        exact hall.1
      have hcne : ¬(c = '-') := by
        intro hc; rw [hc] at hcdig; exact absurd hcdig (by decide)
      simp only [hcne, if_false, hall, if_true]
      rw [← hd, decVal_natDigits]
      congr 1
      omega

/-! ### Lemmas: fresh-id assignment -/

theorem assignFresh_le_snd (coll : Int → Bool) (ids : List Int) (s : Int) :
    s ≤ (assignFresh coll ids s).2 := by
  induction ids generalizing s with
  | nil => simp [assignFresh]
  | cons i rest ih =>
    simp only [assignFresh]
    split
    · exact le_trans (by omega) (ih (s + 1))
    · exact ih s

theorem assignFresh_mem (coll : Int → Bool) {ids : List Int} {s i n : Int}
    (h : (i, n) ∈ (assignFresh coll ids s).1) :
    i ∈ ids ∧ coll i = true ∧ s ≤ n ∧ n < (assignFresh coll ids s).2 := by
  induction ids generalizing s with
  | nil => simp [assignFresh] at h
  | cons j rest ih =>
    simp only [assignFresh] at h ⊢
    by_cases hj : coll j = true
    · rw [if_pos hj] at h ⊢
      rcases List.mem_cons.mp h with heq | hmem
      · have h1 : i = j ∧ n = s := by simpa [Prod.ext_iff] using heq
        obtain ⟨rfl, rfl⟩ := h1
        have hle := assignFresh_le_snd coll rest (n + 1)
        refine ⟨List.mem_cons_self .., hj, le_refl _, ?_⟩
        show n < (assignFresh coll rest (n + 1)).2
        omega
      · obtain ⟨h1, h2, h3, h4⟩ := ih hmem
        refine ⟨List.mem_cons_of_mem _ h1, h2, by omega, ?_⟩
        show n < (assignFresh coll rest (s + 1)).2
        exact h4
    · rw [if_neg hj] at h ⊢
      obtain ⟨h1, h2, h3, h4⟩ := ih h
      exact ⟨List.mem_cons_of_mem _ h1, h2, h3, h4⟩

theorem assignFresh_exists_mem (coll : Int → Bool) {ids : List Int} {i : Int} (s : Int)
    (hi : i ∈ ids) (hc : coll i = true) :
    ∃ n, (i, n) ∈ (assignFresh coll ids s).1 := by
  induction ids generalizing s with
  | nil => simp at hi
  | cons j rest ih =>
    simp only [assignFresh]
    rcases List.mem_cons.mp hi with rfl | hmem
    · rw [if_pos hc]
      exact ⟨s, List.mem_cons_self ..⟩
    · split
      · obtain ⟨n, hn⟩ := ih (s + 1) hmem
        exact ⟨n, List.mem_cons_of_mem _ hn⟩
      · exact ih s hmem

theorem lookupRemap_eq_some_imp {m : List (Int × Int)} {i n : Int}
    (h : lookupRemap m i = some n) : (i, n) ∈ m := by
  unfold lookupRemap at h
  cases hf : m.find? (fun p => p.1 == i) with
  | none => rw [hf] at h; exact absurd h (by simp)
  | some q =>
    rw [hf] at h
    have hq : (q.1 == i) = true := by
      have h0 := @List.find?_some (Int × Int) (fun p => p.1 == i) q m hf
      simpa using h0
    have hm : q ∈ m := List.mem_of_find?_eq_some hf
    have : q = (i, n) := by
      obtain ⟨q1, q2⟩ := q
      have h2 : q2 = n := by simpa using h
      have h1 : q1 = i := by simpa using hq
      simp [h1, h2]
    exact this ▸ hm

theorem lookupRemap_isSome_iff {m : List (Int × Int)} {i : Int} :
    (lookupRemap m i).isSome = true ↔ ∃ n, (i, n) ∈ m := by
  constructor
  · intro h
    obtain ⟨n, hn⟩ := Option.isSome_iff_exists.mp h
    exact ⟨n, lookupRemap_eq_some_imp hn⟩
  · rintro ⟨n, hn⟩
    unfold lookupRemap
    cases hf : m.find? (fun p => p.1 == i) with
    | none =>
      rw [List.find?_eq_none] at hf
      have := hf (i, n) hn
      simp at this
    | some q => simp

theorem lookupRemap_eq_none_of_not_mem {m : List (Int × Int)} {i : Int}
    (h : ∀ n, (i, n) ∉ m) : lookupRemap m i = none := by
  cases hl : lookupRemap m i with
  | none => rfl
  | some n => exact absurd (lookupRemap_eq_some_imp hl) (h n)

/-! ### Lemmas: max of the id list -/

theorem le_listMax_acc (ids : List Int) (acc : Int) : acc ≤ listMax ids acc := by
  induction ids generalizing acc with
  | nil => simp [listMax]
  | cons i rest ih =>
    simp only [listMax]
    exact le_trans (le_max_left acc i) (ih (max acc i))

theorem le_listMax_of_mem {ids : List Int} {x : Int} (h : x ∈ ids) (acc : Int) :
    x ≤ listMax ids acc := by
  induction ids generalizing acc with
  | nil => simp at h
  | cons i rest ih =>
    simp only [listMax]
    rcases List.mem_cons.mp h with rfl | hmem
    · exact le_trans (le_max_right acc x) (le_listMax_acc rest (max acc x))
    · exact ih hmem (max acc i)

/-! ### Lemmas: the renumbering transform -/

theorem renumberAnnot_tag (tags : List WTag) (m : List (Int × Int)) (a : AnnotNode) :
    (renumberAnnot tags m a).tag = a.tag := by
  unfold renumberAnnot
  split
  · split
    · split <;> rfl
    · rfl
  · rfl

theorem renumberAnnot_of_not_mem {tags : List WTag} {a : AnnotNode}
    (h : a.tag ∉ tags) (m : List (Int × Int)) : renumberAnnot tags m a = a := by
  unfold renumberAnnot
  rw [if_neg h]

theorem parseInt_renumberAnnot_of_mem {tags : List WTag} {a : AnnotNode}
    (h : a.tag ∈ tags) (m : List (Int × Int)) :
    parseInt (renumberAnnot tags m a).wId =
      (parseInt a.wId).map (applyRemap m) := by
  unfold renumberAnnot
  rw [if_pos h]
  cases hp : parseInt a.wId with
  | none => simp [hp]
  | some o =>
    cases hl : lookupRemap m o with
    | none => simp [hp, hl, applyRemap]
    | some n => simp [hp, hl, applyRemap, parseInt_intStr]

theorem byTag_map_renumber (annots : List AnnotNode) (tags : List WTag)
    (m : List (Int × Int)) (t : WTag) :
    byTag (annots.map (renumberAnnot tags m)) t = (byTag annots t).map (renumberAnnot tags m) := by
  unfold byTag
  rw [List.filter_map]
  congr 1
  apply List.filter_congr
  intro a _
  simp [renumberAnnot_tag]

theorem flatMap_congr_mem {α β : Type} {l : List α} {f g : α → List β}
    (h : ∀ a ∈ l, f a = g a) : l.flatMap f = l.flatMap g := by
  induction l with
  | nil => rfl
  | cons a rest ih =>
    simp only [List.flatMap_cons]
    rw [h a (List.mem_cons_self ..), ih fun b hb => h b (List.mem_cons_of_mem _ hb)]

/-- Renumbering a family of tags rewrites exactly the collected ids of that
family through the remap (keys get their fresh value, other ids survive). -/
theorem collectWIds_renumber_self (annots : List AnnotNode) (tags : List WTag)
    (m : List (Int × Int)) :
    collectWIds (annots.map (renumberAnnot tags m)) tags =
      (collectWIds annots tags).map (applyRemap m) := by
  unfold collectWIds
  rw [List.map_flatMap]
  apply flatMap_congr_mem
  intro t ht
  rw [byTag_map_renumber, List.filterMap_map, List.map_filterMap]
  apply List.filterMap_congr
  intro a ha
  have hat : a.tag = t := by
    have := List.mem_filter.mp ha
    simpa using this.2
  rw [Function.comp_apply, parseInt_renumberAnnot_of_mem (hat ▸ ht)]

/-- Renumbering one tag family leaves the collected ids of a disjoint family
untouched. -/
theorem collectWIds_renumber_other (annots : List AnnotNode) (tags0 : List WTag)
    (m : List (Int × Int)) (tags : List WTag) (hdisj : ∀ t ∈ tags, t ∉ tags0) :
    collectWIds (annots.map (renumberAnnot tags0 m)) tags = collectWIds annots tags := by
  unfold collectWIds
  apply flatMap_congr_mem
  intro t ht
  rw [byTag_map_renumber]
  have h2 : ∀ a ∈ byTag annots t, renumberAnnot tags0 m a = id a := by
    intro a ha
    have hat : a.tag = t := by
      have := List.mem_filter.mp ha
      simpa using this.2
    exact renumberAnnot_of_not_mem (hat ▸ hdisj t ht) m
  rw [List.map_congr_left h2, List.map_id]

/-! ### Lemmas: the identifier index -/

theorem contains_iff_mem {l : List Int} {x : Int} : l.contains x = true ↔ x ∈ l := by
  simp

theorem collectWIds_nil (tags : List WTag) : collectWIds [] tags = [] := by
  induction tags with
  | nil => rfl
  | cons t rest ih =>
    have h1 : collectWIds [] (t :: rest) =
        ((byTag [] t).filterMap fun a => parseInt a.wId) ++ collectWIds [] rest := by
      simp only [collectWIds, List.flatMap_cons]
    rw [h1, ih]
    rfl

theorem collectWIds_append (annots : List AnnotNode) (t1 t2 : List WTag) :
    collectWIds annots (t1 ++ t2) = collectWIds annots t1 ++ collectWIds annots t2 := by
  simp [collectWIds, List.flatMap_append]

theorem mem_sortedDedup {l : List Int} {x : Int} :
    x ∈ List.insertionSort (· ≤ ·) l.dedup ↔ x ∈ l := by
  rw [List.mem_insertionSort, List.mem_dedup]

/-! ### Lemmas: the two remaps of the deconfliction pass -/

theorem commentRemap_le_snd (annots : List AnnotNode) (s : Int) :
    s ≤ (commentRemap annots s).2 := by
  simp only [commentRemap]
  exact assignFresh_le_snd ..

theorem commentRemap_mem {annots : List AnnotNode} {s o n : Int}
    (h : (o, n) ∈ (commentRemap annots s).1) :
    s ≤ n ∧ n < (commentRemap annots s).2 := by
  simp only [commentRemap] at h ⊢
  exact (assignFresh_mem _ h).2.2

theorem changeRemap_mem {annots : List AnnotNode} {s o n : Int}
    (h : (o, n) ∈ (changeRemap annots s).1) :
    s ≤ n ∧ n < (changeRemap annots s).2 := by
  simp only [changeRemap] at h ⊢
  exact (assignFresh_mem _ h).2.2

theorem commentRemap_none {annots : List AnnotNode} {s o : Int}
    (ho : o ∈ collectWIds annots COMMENT_DOC_TAGS)
    (h : lookupRemap (commentRemap annots s).1 o = none) :
    o ∉ collectWIds annots BOOKMARK_TAGS ∧ o ∉ collectWIds annots CHANGE_TAGS := by
  have himp : ¬ ((collectWIds annots BOOKMARK_TAGS).contains o ||
      (collectWIds annots CHANGE_TAGS).contains o) = true := by
    intro hcoll
    have hos : o ∈ List.insertionSort (· ≤ ·) (collectWIds annots COMMENT_DOC_TAGS).dedup :=
      mem_sortedDedup.mpr ho
    obtain ⟨n, hn⟩ := assignFresh_exists_mem
      (fun i => (collectWIds annots BOOKMARK_TAGS).contains i ||
        (collectWIds annots CHANGE_TAGS).contains i) s hos hcoll
    have hsome : (lookupRemap (commentRemap annots s).1 o).isSome = true :=
      lookupRemap_isSome_iff.mpr ⟨n, by simpa [commentRemap] using hn⟩
    rw [h] at hsome
    simp at hsome
  constructor
  · intro hb
    exact himp (by simp [hb])
  · intro hc
    exact himp (by simp [hc])

theorem changeRemap_none {annots : List AnnotNode} {s o : Int}
    (ho : o ∈ collectWIds annots CHANGE_TAGS)
    (h : lookupRemap (changeRemap annots s).1 o = none) :
    o ∉ collectWIds annots BOOKMARK_TAGS ∧ o ∉ collectWIds annots COMMENT_DOC_TAGS := by
  have himp : ¬ ((collectWIds annots BOOKMARK_TAGS).contains o ||
      (collectWIds annots COMMENT_DOC_TAGS).contains o) = true := by
    intro hcoll
    have hos : o ∈ List.insertionSort (· ≤ ·) (collectWIds annots CHANGE_TAGS).dedup :=
      mem_sortedDedup.mpr ho
    obtain ⟨n, hn⟩ := assignFresh_exists_mem
      (fun i => (collectWIds annots BOOKMARK_TAGS).contains i ||
        (collectWIds annots COMMENT_DOC_TAGS).contains i) s hos hcoll
    have hsome : (lookupRemap (changeRemap annots s).1 o).isSome = true :=
      lookupRemap_isSome_iff.mpr ⟨n, by simpa [changeRemap] using hn⟩
    rw [h] at hsome
    simp at hsome
  constructor
  · intro hb
    exact himp (by simp [hb])
  · intro hc
    exact himp (by simp [hc])

/-! ### Lemmas: disjointness after deconfliction -/

/-- Abstract shape of the deconfliction argument: bookmark ids stay below
the max, comment-kind ids either get a fresh value in `[M+1, mid)` or keep
an old value colliding with nothing, change-kind ids either get a fresh
value `≥ mid` or keep an old value colliding with nothing; the three
resulting sets are pairwise disjoint. -/
theorem renumbered_sets_disjoint
    {bL cL chL : List Int} {m1 m2 : List (Int × Int)} {M mid : Int}
    (hb : ∀ x ∈ bL, x ≤ M) (hc : ∀ x ∈ cL, x ≤ M) (hch : ∀ x ∈ chL, x ≤ M)
    (hmid : M + 1 ≤ mid)
    (hm1 : ∀ o n : Int, (o, n) ∈ m1 → M + 1 ≤ n ∧ n < mid)
    (hm2 : ∀ o n : Int, (o, n) ∈ m2 → mid ≤ n)
    (hdom1 : ∀ o ∈ cL, lookupRemap m1 o = none → o ∉ bL ∧ o ∉ chL)
    (hdom2 : ∀ o ∈ chL, lookupRemap m2 o = none → o ∉ bL ∧ o ∉ cL) :
    Disjoint bL.toFinset (cL.map (applyRemap m1)).toFinset ∧
    Disjoint bL.toFinset (chL.map (applyRemap m2)).toFinset ∧
    Disjoint (cL.map (applyRemap m1)).toFinset (chL.map (applyRemap m2)).toFinset := by
  have hval1 : ∀ o ∈ cL, (∃ n, lookupRemap m1 o = some n ∧ M + 1 ≤ n ∧ n < mid) ∨
      (lookupRemap m1 o = none ∧ o ∉ bL ∧ o ∉ chL) := by
    intro o ho
    cases hl : lookupRemap m1 o with
    | some n => exact Or.inl ⟨n, rfl, hm1 o n (lookupRemap_eq_some_imp hl)⟩
    | none => exact Or.inr ⟨rfl, hdom1 o ho hl⟩
  have hval2 : ∀ o ∈ chL, (∃ n, lookupRemap m2 o = some n ∧ mid ≤ n) ∨
      (lookupRemap m2 o = none ∧ o ∉ bL ∧ o ∉ cL) := by
    intro o ho
    cases hl : lookupRemap m2 o with
    | some n => exact Or.inl ⟨n, rfl, hm2 o n (lookupRemap_eq_some_imp hl)⟩
    | none => exact Or.inr ⟨rfl, hdom2 o ho hl⟩
  refine ⟨?_, ?_, ?_⟩
  · rw [Finset.disjoint_left]
    intro x hx hx2
    rw [List.mem_toFinset] at hx
    rw [List.mem_toFinset, List.mem_map] at hx2
    obtain ⟨o, ho, hfo⟩ := hx2
    rcases hval1 o ho with ⟨n, hl, hn1, hn2⟩ | ⟨hl, hnb, hnch⟩
    · rw [applyRemap, hl] at hfo
      have hxM := hb x hx
      simp only [Option.getD_some] at hfo
      omega
    · rw [applyRemap, hl] at hfo
      simp only [Option.getD_none] at hfo
      exact hnb (hfo ▸ hx)
  · rw [Finset.disjoint_left]
    intro x hx hx2
    rw [List.mem_toFinset] at hx
    rw [List.mem_toFinset, List.mem_map] at hx2
    obtain ⟨o, ho, hfo⟩ := hx2
    rcases hval2 o ho with ⟨n, hl, hn1⟩ | ⟨hl, hnb, hnc⟩
    · rw [applyRemap, hl] at hfo
      have hxM := hb x hx
      simp only [Option.getD_some] at hfo
      omega
    · rw [applyRemap, hl] at hfo
      simp only [Option.getD_none] at hfo
      exact hnb (hfo ▸ hx)
  · rw [Finset.disjoint_left]
    intro x hx hx2
    rw [List.mem_toFinset, List.mem_map] at hx hx2
    obtain ⟨o, ho, hfo⟩ := hx
    obtain ⟨u, hu, hfu⟩ := hx2
    rcases hval1 o ho with ⟨n, hl, hn1, hn2⟩ | ⟨hl, hnb, hnch⟩ <;>
      rcases hval2 u hu with ⟨n2, hl2, hn3⟩ | ⟨hl2, hnb2, hnc2⟩
    · rw [applyRemap, hl] at hfo
      rw [applyRemap, hl2] at hfu
      simp only [Option.getD_some] at hfo hfu
      omega
    · rw [applyRemap, hl] at hfo
      rw [applyRemap, hl2] at hfu
      simp only [Option.getD_some, Option.getD_none] at hfo hfu
      have := hch u hu
      omega
    · rw [applyRemap, hl] at hfo
      rw [applyRemap, hl2] at hfu
      simp only [Option.getD_none, Option.getD_some] at hfo hfu
      have := hc o ho
      omega
    · rw [applyRemap, hl] at hfo
      rw [applyRemap, hl2] at hfu
      simp only [Option.getD_none] at hfo hfu
      exact hnch (by rw [hfo, ← hfu]; exact hu)

/-- Every id collected from the document is bounded by the computed maximum. -/
theorem collect_all_le_max {annots : List AnnotNode} {i0 : Int} {rest : List Int}
    (hall : collectWIds annots (BOOKMARK_TAGS ++ COMMENT_DOC_TAGS ++ CHANGE_TAGS) = i0 :: rest) :
    (∀ x ∈ collectWIds annots BOOKMARK_TAGS, x ≤ listMax rest i0) ∧
    (∀ x ∈ collectWIds annots COMMENT_DOC_TAGS, x ≤ listMax rest i0) ∧
    (∀ x ∈ collectWIds annots CHANGE_TAGS, x ≤ listMax rest i0) := by
  have hmem : ∀ x ∈ collectWIds annots (BOOKMARK_TAGS ++ COMMENT_DOC_TAGS ++ CHANGE_TAGS),
      x ≤ listMax rest i0 := by
    intro x hx
    rw [hall] at hx
    rcases List.mem_cons.mp hx with rfl | hx2
    · exact le_listMax_acc rest x
    · exact le_listMax_of_mem hx2 i0
  rw [collectWIds_append, collectWIds_append] at hmem
  refine ⟨?_, ?_, ?_⟩ <;> intro x hx <;> apply hmem <;> simp [hx]

/-- A package with no cross-kind collision has pairwise-disjoint kind sets. -/
theorem hasCollision_eq_false_disjoint {annots : List AnnotNode}
    (h : hasCollision annots = false) :
    Disjoint (idSet annots BOOKMARK_TAGS) (idSet annots COMMENT_DOC_TAGS) ∧
    Disjoint (idSet annots BOOKMARK_TAGS) (idSet annots CHANGE_TAGS) ∧
    Disjoint (idSet annots COMMENT_DOC_TAGS) (idSet annots CHANGE_TAGS) := by
  simp only [hasCollision, Bool.or_eq_false_iff, List.any_eq_false] at h
  obtain ⟨⟨h1, h2⟩, h3⟩ := h
  refine ⟨?_, ?_, ?_⟩ <;> rw [Finset.disjoint_left] <;> intro x hx hx2 <;>
    rw [idSet, List.mem_toFinset] at hx <;> rw [idSet, List.mem_toFinset] at hx2
  · exact absurd (contains_iff_mem.mpr hx) (h1 x hx2)
  · exact absurd (contains_iff_mem.mpr hx) (h2 x hx2)
  · exact absurd (contains_iff_mem.mpr hx) (h3 x hx2)

/-- Core collision-invariant fact: after `deconflict_ids`, the bookmark,
comment and change id sets of the document are pairwise disjoint. -/
theorem deconflictIds_disjoint (p : Package) :
    Disjoint (kindIds (deconflictIds p).1 BOOKMARK_TAGS)
      (kindIds (deconflictIds p).1 COMMENT_DOC_TAGS) ∧
    Disjoint (kindIds (deconflictIds p).1 BOOKMARK_TAGS)
      (kindIds (deconflictIds p).1 CHANGE_TAGS) ∧
    Disjoint (kindIds (deconflictIds p).1 COMMENT_DOC_TAGS)
      (kindIds (deconflictIds p).1 CHANGE_TAGS) := by
  obtain ⟨pdoc, pcom, pext, pids, pxt, pct, prl⟩ := p
  cases pdoc with
  | absent => simp [deconflictIds, kindIds, docAnnots, idSet, collectWIds_nil]
  | unparseable => simp [deconflictIds, kindIds, docAnnots, idSet, collectWIds_nil]
  | parsed d =>
    simp only [deconflictIds]
    split
    · next hall =>
      rw [collectWIds_append, collectWIds_append] at hall
      rw [List.append_eq_nil, List.append_eq_nil] at hall
      obtain ⟨⟨hB, hC⟩, hCH⟩ := hall
      simp [kindIds, docAnnots, idSet, hB, hC, hCH]
    · next i0 rest hall =>
      by_cases hcol : hasCollision d.annots = true
      · rw [if_pos hcol]
        obtain ⟨hbM, hcM, hchM⟩ := collect_all_le_max hall
        have e1 : collectWIds
            ((d.annots.map (renumberAnnot COMMENT_DOC_TAGS
              (commentRemap d.annots (listMax rest i0 + 1)).1)).map
              (renumberAnnot CHANGE_TAGS
                (changeRemap d.annots (commentRemap d.annots (listMax rest i0 + 1)).2).1))
            BOOKMARK_TAGS = collectWIds d.annots BOOKMARK_TAGS := by
          rw [collectWIds_renumber_other _ _ _ _ (by decide),
            collectWIds_renumber_other _ _ _ _ (by decide)]
        have e2 : collectWIds
            ((d.annots.map (renumberAnnot COMMENT_DOC_TAGS
              (commentRemap d.annots (listMax rest i0 + 1)).1)).map
              (renumberAnnot CHANGE_TAGS
                (changeRemap d.annots (commentRemap d.annots (listMax rest i0 + 1)).2).1))
            COMMENT_DOC_TAGS = (collectWIds d.annots COMMENT_DOC_TAGS).map
              (applyRemap (commentRemap d.annots (listMax rest i0 + 1)).1) := by
          rw [collectWIds_renumber_other _ _ _ _ (by decide), collectWIds_renumber_self]
        have e3 : collectWIds
            ((d.annots.map (renumberAnnot COMMENT_DOC_TAGS
              (commentRemap d.annots (listMax rest i0 + 1)).1)).map
              (renumberAnnot CHANGE_TAGS
                (changeRemap d.annots (commentRemap d.annots (listMax rest i0 + 1)).2).1))
            CHANGE_TAGS = (collectWIds d.annots CHANGE_TAGS).map
              (applyRemap (changeRemap d.annots (commentRemap d.annots (listMax rest i0 + 1)).2).1) := by
          rw [collectWIds_renumber_self, collectWIds_renumber_other _ _ _ _ (by decide)]
        have hcore := renumbered_sets_disjoint
          hbM hcM hchM
          (commentRemap_le_snd d.annots (listMax rest i0 + 1))
          (fun o n hmem => commentRemap_mem hmem)
          (fun o n hmem => (changeRemap_mem hmem).1)
          (fun o ho hnone => commentRemap_none ho hnone)
          (fun o ho hnone => changeRemap_none ho hnone)
        simp only [kindIds, docAnnots, idSet]
        rw [e1, e2, e3]
        exact hcore
      · rw [if_neg hcol]
        have hdisj := hasCollision_eq_false_disjoint (Bool.not_eq_true _ ▸ hcol)
        simpa [kindIds, docAnnots] using hdisj

/-! ### Frame lemmas: each phase touches only its own parts -/

theorem deconflictIds_commentsExtended (p : Package) :
    (deconflictIds p).1.commentsExtended = p.commentsExtended := by
  unfold deconflictIds
  split <;> try rfl
  split <;> try rfl
  split <;> rfl

theorem deconflictIds_commentsIds (p : Package) :
    (deconflictIds p).1.commentsIds = p.commentsIds := by
  unfold deconflictIds
  split <;> try rfl
  split <;> try rfl
  split <;> rfl

theorem deconflictIds_commentsExtensible (p : Package) :
    (deconflictIds p).1.commentsExtensible = p.commentsExtensible := by
  unfold deconflictIds
  split <;> try rfl
  split <;> try rfl
  split <;> rfl

theorem deconflictIds_contentTypes (p : Package) :
    (deconflictIds p).1.contentTypes = p.contentTypes := by
  unfold deconflictIds
  split <;> try rfl
  split <;> try rfl
  split <;> rfl

theorem deconflictIds_rels (p : Package) :
    (deconflictIds p).1.rels = p.rels := by
  unfold deconflictIds
  split <;> try rfl
  split <;> try rfl
  split <;> rfl

theorem dedupRelationships_document (p : Package) :
    (dedupRelationships p).1.document = p.document := rfl

theorem dedupRelationships_comments (p : Package) :
    (dedupRelationships p).1.comments = p.comments := rfl

theorem dedupRelationships_commentsExtended (p : Package) :
    (dedupRelationships p).1.commentsExtended = p.commentsExtended := rfl

theorem dedupRelationships_commentsIds (p : Package) :
    (dedupRelationships p).1.commentsIds = p.commentsIds := rfl

theorem dedupRelationships_commentsExtensible (p : Package) :
    (dedupRelationships p).1.commentsExtensible = p.commentsExtensible := rfl

theorem cleanOrphanedComments_document (p : Package) :
    (cleanOrphanedComments p).1.document = p.document := by
  unfold cleanOrphanedComments
  split <;> rfl

theorem cleanOrphanedComments_comments (p : Package) :
    (cleanOrphanedComments p).1.comments = p.comments := by
  unfold cleanOrphanedComments
  split <;> rfl

theorem cleanOrphanedComments_contentTypes (p : Package) :
    (cleanOrphanedComments p).1.contentTypes = p.contentTypes := by
  unfold cleanOrphanedComments
  split <;> rfl

theorem cleanOrphanedComments_rels (p : Package) :
    (cleanOrphanedComments p).1.rels = p.rels := by
  unfold cleanOrphanedComments
  split <;> rfl

theorem fixXmlSpace_comments (p : Package) :
    (fixXmlSpace p).1.comments = p.comments := by
  unfold fixXmlSpace
  split <;> try rfl
  dsimp only
  split <;> rfl

theorem fixXmlSpace_commentsExtended (p : Package) :
    (fixXmlSpace p).1.commentsExtended = p.commentsExtended := by
  unfold fixXmlSpace
  split <;> try rfl
  dsimp only
  split <;> rfl

theorem fixXmlSpace_commentsIds (p : Package) :
    (fixXmlSpace p).1.commentsIds = p.commentsIds := by
  unfold fixXmlSpace
  split <;> try rfl
  dsimp only
  split <;> rfl

theorem fixXmlSpace_commentsExtensible (p : Package) :
    (fixXmlSpace p).1.commentsExtensible = p.commentsExtensible := by
  unfold fixXmlSpace
  split <;> try rfl
  dsimp only
  split <;> rfl

theorem fixXmlSpace_contentTypes (p : Package) :
    (fixXmlSpace p).1.contentTypes = p.contentTypes := by
  unfold fixXmlSpace
  split <;> try rfl
  dsimp only
  split <;> rfl

theorem fixXmlSpace_rels (p : Package) :
    (fixXmlSpace p).1.rels = p.rels := by
  unfold fixXmlSpace
  split <;> try rfl
  dsimp only
  split <;> rfl

theorem docAnnots_fixXmlSpace (p : Package) :
    docAnnots (fixXmlSpace p).1 = docAnnots p := by
  unfold fixXmlSpace
  split
  · rfl
  · rfl
  · next d heq =>
    dsimp only
    split
    · simp [docAnnots, heq]
    · rfl

theorem docAnnots_dedupRelationships (p : Package) :
    docAnnots (dedupRelationships p).1 = docAnnots p := by
  unfold docAnnots
  rw [dedupRelationships_document]

theorem docAnnots_cleanOrphanedComments (p : Package) :
    docAnnots (cleanOrphanedComments p).1 = docAnnots p := by
  unfold docAnnots
  rw [cleanOrphanedComments_document]

/-- The kind sets of the finished pipeline are those left by the
deconfliction phase: no later phase touches an annotation element. -/
theorem runFixup_kindIds (p : Package) (tags : List WTag) :
    kindIds (runFixup p).1 tags = kindIds (deconflictIds p).1 tags := by
  unfold runFixup kindIds
  rw [docAnnots_fixXmlSpace, docAnnots_cleanOrphanedComments, docAnnots_dedupRelationships]

/-! ### The clean-package no-op -/

theorem hasCollision_eq_false_of_disjoint {annots : List AnnotNode}
    (h1 : Disjoint (idSet annots BOOKMARK_TAGS) (idSet annots COMMENT_DOC_TAGS))
    (h2 : Disjoint (idSet annots BOOKMARK_TAGS) (idSet annots CHANGE_TAGS))
    (h3 : Disjoint (idSet annots COMMENT_DOC_TAGS) (idSet annots CHANGE_TAGS)) :
    hasCollision annots = false := by
  simp only [hasCollision, Bool.or_eq_false_iff, List.any_eq_false]
  refine ⟨⟨?_, ?_⟩, ?_⟩
  · intro x hx hcon
    have hxb : x ∈ idSet annots BOOKMARK_TAGS := by
      rw [idSet, List.mem_toFinset]
      exact contains_iff_mem.mp hcon
    have hxc : x ∈ idSet annots COMMENT_DOC_TAGS := by
      rw [idSet, List.mem_toFinset]
      exact hx
    exact Finset.disjoint_left.mp h1 hxb hxc
  · intro x hx hcon
    have hxb : x ∈ idSet annots BOOKMARK_TAGS := by
      rw [idSet, List.mem_toFinset]
      exact contains_iff_mem.mp hcon
    have hxch : x ∈ idSet annots CHANGE_TAGS := by
      rw [idSet, List.mem_toFinset]
      exact hx
    exact Finset.disjoint_left.mp h2 hxb hxch
  · intro x hx hcon
    have hxc : x ∈ idSet annots COMMENT_DOC_TAGS := by
      rw [idSet, List.mem_toFinset]
      exact contains_iff_mem.mp hcon
    have hxch : x ∈ idSet annots CHANGE_TAGS := by
      rw [idSet, List.mem_toFinset]
      exact hx
    exact Finset.disjoint_left.mp h3 hxc hxch

/-- On a package whose kind sets are already pairwise disjoint,
`deconflict_ids` is a strict no-op: unchanged package, zero summary, no writes. -/
theorem deconflictIds_noop_of_disjoint {p : Package}
    (h1 : Disjoint (kindIds p BOOKMARK_TAGS) (kindIds p COMMENT_DOC_TAGS))
    (h2 : Disjoint (kindIds p BOOKMARK_TAGS) (kindIds p CHANGE_TAGS))
    (h3 : Disjoint (kindIds p COMMENT_DOC_TAGS) (kindIds p CHANGE_TAGS)) :
    deconflictIds p = (p, ⟨0, 0⟩, []) := by
  obtain ⟨pdoc, pcom, pext, pids, pxt, pct, prl⟩ := p
  cases pdoc with
  | absent => rfl
  | unparseable => rfl
  | parsed d =>
    simp only [kindIds, docAnnots] at h1 h2 h3
    have hcol := hasCollision_eq_false_of_disjoint h1 h2 h3
    unfold deconflictIds
    dsimp only
    split
    · rfl
    · rw [if_neg (by simp [hcol])]

/-- Running `deconflict_ids` on the output of the full pipeline changes
nothing: its collision sets are already disjoint. -/
theorem deconflictIds_runFixup_noop (p : Package) :
    deconflictIds (runFixup p).1 = ((runFixup p).1, ⟨0, 0⟩, []) := by
  obtain ⟨hd1, hd2, hd3⟩ := deconflictIds_disjoint p
  apply deconflictIds_noop_of_disjoint <;>
    simp only [runFixup_kindIds] <;> assumption

/-! ### Lemmas: relationship dedup -/

theorem dedupCt_count_add_length (l : List CtEntry) (sO sD : List String) :
    (dedupCt l sO sD).2 + (dedupCt l sO sD).1.length = l.length := by
  induction l generalizing sO sD with
  | nil => simp [dedupCt]
  | cons e rest ih =>
    cases e with
    | override pn =>
      simp only [dedupCt]
      split
      · have := ih sO sD
        simp only [List.length_cons]
        omega
      · have := ih (pn :: sO) sD
        simp only [List.length_cons]
        omega
    | dflt en =>
      simp only [dedupCt]
      split
      · have := ih sO sD
        simp only [List.length_cons]
        omega
      · have := ih sO (en :: sD)
        simp only [List.length_cons]
        omega

theorem dedupCt_zero {l : List CtEntry} {sO sD : List String}
    (h : (dedupCt l sO sD).2 = 0) : (dedupCt l sO sD).1 = l := by
  induction l generalizing sO sD with
  | nil => simp [dedupCt]
  | cons e rest ih =>
    cases e with
    | override pn =>
      simp only [dedupCt] at h ⊢
      split at h
      · next _hmem =>
        simp at h
      · next hmem =>
        rw [if_neg hmem]
        simp only at h ⊢
        rw [ih h]
    | dflt en =>
      simp only [dedupCt] at h ⊢
      split at h
      · next _hmem =>
        simp at h
      · next hmem =>
        rw [if_neg hmem]
        simp only at h ⊢
        rw [ih h]

theorem dedupCt_idem (l : List CtEntry) (sO sD : List String) :
    dedupCt (dedupCt l sO sD).1 sO sD = ((dedupCt l sO sD).1, 0) := by
  induction l generalizing sO sD with
  | nil => simp [dedupCt]
  | cons e rest ih =>
    cases e with
    | override pn =>
      simp only [dedupCt]
      by_cases hpn : pn ∈ sO
      · rw [if_pos hpn]
        exact ih sO sD
      · rw [if_neg hpn]
        simp only [dedupCt]
        rw [if_neg hpn, ih (pn :: sO) sD]
    | dflt en =>
      simp only [dedupCt]
      by_cases hen : en ∈ sD
      · rw [if_pos hen]
        exact ih sO sD
      · rw [if_neg hen]
        simp only [dedupCt]
        rw [if_neg hen, ih sO (en :: sD)]

theorem dedupRels_count_add_length (l : List RelEntry) (seen : List (String × String)) :
    (dedupRels l seen).2 + (dedupRels l seen).1.length = l.length := by
  induction l generalizing seen with
  | nil => simp [dedupRels]
  | cons e rest ih =>
    simp only [dedupRels]
    split
    · have := ih seen
      simp only [List.length_cons]
      omega
    · have := ih ((e.relType, e.relTarget) :: seen)
      simp only [List.length_cons]
      omega

theorem dedupRels_idem (l : List RelEntry) (seen : List (String × String)) :
    dedupRels (dedupRels l seen).1 seen = ((dedupRels l seen).1, 0) := by
  induction l generalizing seen with
  | nil => simp [dedupRels]
  | cons e rest ih =>
    simp only [dedupRels]
    by_cases hk : (e.relType, e.relTarget) ∈ seen
    · rw [if_pos hk]
      exact ih seen
    · rw [if_neg hk]
      simp only [dedupRels]
      rw [if_neg hk, ih ((e.relType, e.relTarget) :: seen)]

theorem dedupRelsAll_idem (rs : List (String × Part (List RelEntry))) :
    dedupRelsAll (dedupRelsAll rs).1 = ((dedupRelsAll rs).1, 0, []) := by
  induction rs with
  | nil => rfl
  | cons pr rest ih =>
    obtain ⟨path, filePart⟩ := pr
    simp only [dedupRelsAll]
    cases filePart with
    | absent =>
      simp only [dedupRelsAll, ih]
    | unparseable =>
      simp only [dedupRelsAll, ih]
    | parsed l =>
      dsimp only
      by_cases hd : (dedupRels l []).2 > 0
      · rw [if_pos hd]
        simp only [dedupRelsAll, ih]
        rw [dedupRels_idem]
        simp
      · rw [if_neg hd]
        simp only [dedupRelsAll, ih]
        rw [if_neg hd]

theorem contentTypesStep_idem (part : Part (List CtEntry)) :
    contentTypesStep (contentTypesStep part).1 = ((contentTypesStep part).1, 0, []) := by
  cases part with
  | absent => rfl
  | unparseable => rfl
  | parsed l =>
    simp only [contentTypesStep]
    by_cases hd : (dedupCt l [] []).2 > 0
    · rw [if_pos hd]
      simp only [contentTypesStep]
      rw [dedupCt_idem]
      simp
    · rw [if_neg hd]
      simp only [contentTypesStep]
      rw [if_neg hd]

/-- Second-pass no-op of the dedup phase: on any package whose content-type
and relationship manifests are those left by a previous `dedup_relationships`
run, the phase changes nothing, removes nothing, and writes nothing. -/
theorem dedupRelationships_noop (q r : Package)
    (hct : r.contentTypes = (dedupRelationships q).1.contentTypes)
    (hrl : r.rels = (dedupRelationships q).1.rels) :
    dedupRelationships r = (r, ⟨0, 0⟩, []) := by
  have h1 : contentTypesStep r.contentTypes = (r.contentTypes, 0, []) := by
    rw [hct]
    show contentTypesStep (contentTypesStep q.contentTypes).1 = _
    rw [contentTypesStep_idem]
    rfl
  have h2 : dedupRelsAll r.rels = (r.rels, 0, []) := by
    rw [hrl]
    show dedupRelsAll (dedupRelsAll q.rels).1 = _
    rw [dedupRelsAll_idem]
    rfl
  unfold dedupRelationships
  rw [h1, h2]
  rfl

/-! ### Lemmas: orphan cleanup -/

theorem cleanExtended_idem (valid : List String) (l : List CommentExEntry) :
    cleanExtended valid (cleanExtended valid l).1 =
      ((cleanExtended valid l).1, 0, (cleanExtended valid l).2.2) := by
  induction l with
  | nil => rfl
  | cons e rest ih =>
    simp only [cleanExtended]
    by_cases h1 : e.paraId ≠ "" ∧ e.paraId ∉ valid
    · rw [if_pos h1]
      exact ih
    · rw [if_neg h1]
      by_cases h2 : e.paraId ≠ "" ∧ e.paraId ∈ valid
      · rw [if_pos h2]
        by_cases h3 : e.durableId ≠ ""
        · rw [if_pos h3]
          simp only [cleanExtended]
          rw [if_neg h1, if_pos h2, if_pos h3, ih]
        · rw [if_neg h3]
          simp only [cleanExtended]
          rw [if_neg h1, if_pos h2, if_neg h3, ih]
      · rw [if_neg h2]
        simp only [cleanExtended]
        rw [if_neg h1, if_neg h2, ih]

theorem cleanIds_idem (valid : List String) (l : List CommentIdEntry) :
    cleanIds valid (cleanIds valid l).1 = ((cleanIds valid l).1, 0) := by
  induction l with
  | nil => rfl
  | cons e rest ih =>
    simp only [cleanIds]
    by_cases h1 : e.paraId ≠ "" ∧ e.paraId ∉ valid
    · rw [if_pos h1]
      exact ih
    · rw [if_neg h1]
      simp only [cleanIds]
      rw [if_neg h1, ih]

theorem cleanExtensible_idem (validDur : List String) (l : List CommentExtEntry) :
    cleanExtensible validDur (cleanExtensible validDur l).1 =
      ((cleanExtensible validDur l).1, 0) := by
  induction l with
  | nil => rfl
  | cons e rest ih =>
    simp only [cleanExtensible]
    by_cases h1 : e.durableId ≠ "" ∧ validDur ≠ [] ∧ e.durableId ∉ validDur
    · rw [if_pos h1]
      exact ih
    · rw [if_neg h1]
      simp only [cleanExtensible]
      rw [if_neg h1, ih]

theorem extendedStep_idem (valid : List String) (part : Part (List CommentExEntry)) :
    extendedStep valid (extendedStep valid part).1 =
      ((extendedStep valid part).1, 0, (extendedStep valid part).2.2.1, []) := by
  cases part with
  | absent => rfl
  | unparseable => rfl
  | parsed l =>
    simp only [extendedStep]
    by_cases hd : (cleanExtended valid l).2.1 > 0
    · rw [if_pos hd]
      simp only [extendedStep]
      rw [cleanExtended_idem]
      simp
    · rw [if_neg hd]
      simp only [extendedStep]
      rw [if_neg hd]

theorem idsStep_idem (valid : List String) (part : Part (List CommentIdEntry)) :
    idsStep valid (idsStep valid part).1 = ((idsStep valid part).1, 0, []) := by
  cases part with
  | absent => rfl
  | unparseable => rfl
  | parsed l =>
    simp only [idsStep]
    by_cases hd : (cleanIds valid l).2 > 0
    · rw [if_pos hd]
      simp only [idsStep]
      rw [cleanIds_idem]
      simp
    · rw [if_neg hd]
      simp only [idsStep]
      rw [if_neg hd]

theorem extensibleStep_idem (validDur : List String) (part : Part (List CommentExtEntry)) :
    extensibleStep validDur (extensibleStep validDur part).1 =
      ((extensibleStep validDur part).1, 0, []) := by
  cases part with
  | absent => rfl
  | unparseable => rfl
  | parsed l =>
    simp only [extensibleStep]
    by_cases hd : (cleanExtensible validDur l).2 > 0
    · rw [if_pos hd]
      simp only [extensibleStep]
      rw [cleanExtensible_idem]
      simp
    · rw [if_neg hd]
      simp only [extensibleStep]
      rw [if_neg hd]

/-- Second-pass no-op of the orphan cleanup: on any package whose comments
part equals the one a previous run saw, and whose three metadata parts are
the ones that run left, the phase changes nothing and removes nothing. -/
theorem cleanOrphanedComments_noop (q r : Package)
    (hcm : r.comments = q.comments)
    (hext : r.commentsExtended = (cleanOrphanedComments q).1.commentsExtended)
    (hids : r.commentsIds = (cleanOrphanedComments q).1.commentsIds)
    (hxt : r.commentsExtensible = (cleanOrphanedComments q).1.commentsExtensible) :
    cleanOrphanedComments r = (r, ⟨0⟩, []) := by
  cases hc : q.comments with
  | absent =>
    have hq : (cleanOrphanedComments q).1 = q := by
      unfold cleanOrphanedComments
      rw [hc]
    rw [hq] at hext hids hxt
    obtain ⟨rd, rc, re, ri, rx, rct, rrl⟩ := r
    simp only at hcm hext hids hxt
    subst hcm hext hids hxt
    unfold cleanOrphanedComments
    rw [hc]
  | unparseable =>
    have hq : (cleanOrphanedComments q).1 = q := by
      unfold cleanOrphanedComments
      rw [hc]
    rw [hq] at hext hids hxt
    obtain ⟨rd, rc, re, ri, rx, rct, rrl⟩ := r
    simp only at hcm hext hids hxt
    subst hcm hext hids hxt
    unfold cleanOrphanedComments
    rw [hc]
  | parsed c =>
    have hparts : (cleanOrphanedComments q).1.commentsExtended =
        (extendedStep (validParaIds c) q.commentsExtended).1 ∧
        (cleanOrphanedComments q).1.commentsIds =
          (idsStep (validParaIds c) q.commentsIds).1 ∧
        (cleanOrphanedComments q).1.commentsExtensible =
          (extensibleStep (extendedStep (validParaIds c) q.commentsExtended).2.2.1
            q.commentsExtensible).1 := by
      unfold cleanOrphanedComments
      rw [hc]
      exact ⟨rfl, rfl, rfl⟩
    obtain ⟨hp1, hp2, hp3⟩ := hparts
    rw [hp1] at hext
    rw [hp2] at hids
    rw [hp3] at hxt
    have he := extendedStep_idem (validParaIds c) q.commentsExtended
    have hi := idsStep_idem (validParaIds c) q.commentsIds
    have hx := extensibleStep_idem
      (extendedStep (validParaIds c) q.commentsExtended).2.2.1 q.commentsExtensible
    unfold cleanOrphanedComments
    rw [hcm, hc]
    dsimp only
    rw [hext, hids, hxt, he, hi]
    dsimp only
    rw [hx]
    dsimp only
    rw [← hext, ← hids, ← hxt, ← hc, ← hcm]
    rfl

/-! ### Lemmas: whitespace fix -/

theorem needsSpace_addSpace (wt : WtNode) : needsSpace (addSpace wt) = false := by
  unfold addSpace
  split
  · simp [needsSpace]
  · next h => simpa using h

/-- A package with no run needing the marker is untouched by `fix_xml_space`. -/
theorem fixXmlSpace_noop {r : Package} (h : (docWts r).filter needsSpace = []) :
    fixXmlSpace r = (r, ⟨0⟩, []) := by
  obtain ⟨rd, rc, re, ri, rx, rct, rrl⟩ := r
  cases rd with
  | absent => rfl
  | unparseable => rfl
  | parsed d =>
    have hw : d.wts.filter needsSpace = [] := by simpa [docWts] using h
    unfold fixXmlSpace
    dsimp only
    rw [hw]
    rfl

/-- After `fix_xml_space`, no run still needs the marker. -/
theorem fixXmlSpace_post (p : Package) :
    (docWts (fixXmlSpace p).1).filter needsSpace = [] := by
  obtain ⟨pd, pc, pe, pi, px, pct, prl⟩ := p
  cases pd with
  | absent => rfl
  | unparseable => rfl
  | parsed d =>
    unfold fixXmlSpace
    dsimp only
    by_cases ha : (d.wts.filter needsSpace).length > 0
    · rw [if_pos ha]
      dsimp only [docWts]
      apply List.filter_eq_nil_iff.mpr
      intro x hx
      obtain ⟨y, hy, rfl⟩ := List.mem_map.mp hx
      simp [needsSpace_addSpace]
    · rw [if_neg ha]
      dsimp only [docWts]
      have hlen : (d.wts.filter needsSpace).length = 0 := by omega
      exact List.length_eq_zero.mp hlen

theorem fixXmlSpace_idem (p : Package) :
    fixXmlSpace (fixXmlSpace p).1 = ((fixXmlSpace p).1, ⟨0⟩, []) :=
  fixXmlSpace_noop (fixXmlSpace_post p)

/-! ### Idempotence of the full pipeline -/

theorem runFixup_second_deconflict (p : Package) :
    deconflictIds (runFixup p).1 = ((runFixup p).1, ⟨0, 0⟩, []) :=
  deconflictIds_runFixup_noop p

theorem runFixup_second_dedup (p : Package) :
    dedupRelationships (runFixup p).1 = ((runFixup p).1, ⟨0, 0⟩, []) := by
  apply dedupRelationships_noop (deconflictIds p).1
  · show (fixXmlSpace (cleanOrphanedComments
      (dedupRelationships (deconflictIds p).1).1).1).1.contentTypes = _
    rw [fixXmlSpace_contentTypes, cleanOrphanedComments_contentTypes]
  · show (fixXmlSpace (cleanOrphanedComments
      (dedupRelationships (deconflictIds p).1).1).1).1.rels = _
    rw [fixXmlSpace_rels, cleanOrphanedComments_rels]

theorem runFixup_second_orphan (p : Package) :
    cleanOrphanedComments (runFixup p).1 = ((runFixup p).1, ⟨0⟩, []) := by
  apply cleanOrphanedComments_noop (dedupRelationships (deconflictIds p).1).1
  · show (fixXmlSpace (cleanOrphanedComments
      (dedupRelationships (deconflictIds p).1).1).1).1.comments = _
    rw [fixXmlSpace_comments, cleanOrphanedComments_comments]
  · show (fixXmlSpace (cleanOrphanedComments
      (dedupRelationships (deconflictIds p).1).1).1).1.commentsExtended = _
    rw [fixXmlSpace_commentsExtended]
  · show (fixXmlSpace (cleanOrphanedComments
      (dedupRelationships (deconflictIds p).1).1).1).1.commentsIds = _
    rw [fixXmlSpace_commentsIds]
  · show (fixXmlSpace (cleanOrphanedComments
      (dedupRelationships (deconflictIds p).1).1).1).1.commentsExtensible = _
    rw [fixXmlSpace_commentsExtensible]

theorem runFixup_second_space (p : Package) :
    fixXmlSpace (runFixup p).1 = ((runFixup p).1, ⟨0⟩, []) :=
  fixXmlSpace_noop (fixXmlSpace_post
    (cleanOrphanedComments (dedupRelationships (deconflictIds p).1).1).1)

/-! ### Lemmas: keep-first shape of the dedup -/

theorem dedupCt_filter_override (l : List CtEntry) (sO sD : List String) (k : String) :
    (dedupCt l sO sD).1.filter (isOverrideKey k) =
      if k ∈ sO then [] else (l.filter (isOverrideKey k)).take 1 := by
  induction l generalizing sO sD with
  | nil => simp [dedupCt]
  | cons e rest ih =>
    cases e with
    | override pn =>
      simp only [dedupCt]
      by_cases hpn : pn ∈ sO
      · rw [if_pos hpn, ih]
        by_cases hk : k ∈ sO
        · rw [if_pos hk, if_pos hk]
        · have hpk : ¬ isOverrideKey k (CtEntry.override pn) = true := by
            simp only [isOverrideKey, beq_iff_eq]
            intro hh
            exact hk (hh ▸ hpn)
          rw [if_neg hk, if_neg hk, List.filter_cons_of_neg hpk]
      · rw [if_neg hpn]
        by_cases hk : pn = k
        · subst hk
          have hpk : isOverrideKey pn (CtEntry.override pn) = true := by
            simp [isOverrideKey]
          rw [List.filter_cons_of_pos hpk, ih, if_pos (List.mem_cons_self ..), if_neg hpn,
            List.filter_cons_of_pos hpk]
          simp
        · have hpk : ¬ isOverrideKey k (CtEntry.override pn) = true := by
            simp only [isOverrideKey, beq_iff_eq]
            exact hk
          rw [List.filter_cons_of_neg hpk, ih]
          by_cases hks : k ∈ sO
          · rw [if_pos (List.mem_cons_of_mem _ hks), if_pos hks]
          · have hknotin : k ∉ pn :: sO := by
              simp only [List.mem_cons]
              rintro (rfl | hbad)
              · exact hk rfl
              · exact hks hbad
            rw [if_neg hknotin, if_neg hks, List.filter_cons_of_neg hpk]
    | dflt en =>
      have hpk : ¬ isOverrideKey k (CtEntry.dflt en) = true := by simp [isOverrideKey]
      simp only [dedupCt]
      by_cases hen : en ∈ sD
      · rw [if_pos hen, ih, List.filter_cons_of_neg hpk]
      · rw [if_neg hen, List.filter_cons_of_neg hpk, ih, List.filter_cons_of_neg hpk]

theorem dedupCt_filter_default (l : List CtEntry) (sO sD : List String) (k : String) :
    (dedupCt l sO sD).1.filter (isDefaultKey k) =
      if k ∈ sD then [] else (l.filter (isDefaultKey k)).take 1 := by
  induction l generalizing sO sD with
  | nil => simp [dedupCt]
  | cons e rest ih =>
    cases e with
    | dflt en =>
      simp only [dedupCt]
      by_cases hen : en ∈ sD
      · rw [if_pos hen, ih]
        by_cases hk : k ∈ sD
        · rw [if_pos hk, if_pos hk]
        · have hpk : ¬ isDefaultKey k (CtEntry.dflt en) = true := by
            simp only [isDefaultKey, beq_iff_eq]
            intro hh
            exact hk (hh ▸ hen)
          rw [if_neg hk, if_neg hk, List.filter_cons_of_neg hpk]
      · rw [if_neg hen]
        by_cases hk : en = k
        · subst hk
          have hpk : isDefaultKey en (CtEntry.dflt en) = true := by
            simp [isDefaultKey]
          rw [List.filter_cons_of_pos hpk, ih, if_pos (List.mem_cons_self ..), if_neg hen,
            List.filter_cons_of_pos hpk]
          simp
        · have hpk : ¬ isDefaultKey k (CtEntry.dflt en) = true := by
            simp only [isDefaultKey, beq_iff_eq]
            exact hk
          rw [List.filter_cons_of_neg hpk, ih]
          by_cases hks : k ∈ sD
          · rw [if_pos (List.mem_cons_of_mem _ hks), if_pos hks]
          · have hknotin : k ∉ en :: sD := by
              simp only [List.mem_cons]
              rintro (rfl | hbad)
              · exact hk rfl
              · exact hks hbad
            rw [if_neg hknotin, if_neg hks, List.filter_cons_of_neg hpk]
    | override pn =>
      have hpk : ¬ isDefaultKey k (CtEntry.override pn) = true := by simp [isDefaultKey]
      simp only [dedupCt]
      by_cases hpn : pn ∈ sO
      · rw [if_pos hpn, ih, List.filter_cons_of_neg hpk]
      · rw [if_neg hpn, List.filter_cons_of_neg hpk, ih, List.filter_cons_of_neg hpk]

theorem dedupRels_filter (l : List RelEntry) (seen : List (String × String))
    (k : String × String) :
    (dedupRels l seen).1.filter (isRelKey k) =
      if k ∈ seen then [] else (l.filter (isRelKey k)).take 1 := by
  induction l generalizing seen with
  | nil => simp [dedupRels]
  | cons e rest ih =>
    simp only [dedupRels]
    by_cases he : (e.relType, e.relTarget) ∈ seen
    · rw [if_pos he, ih]
      by_cases hk : k ∈ seen
      · rw [if_pos hk, if_pos hk]
      · have hpk : ¬ isRelKey k e = true := by
          simp only [isRelKey, beq_iff_eq]
          intro hh
          exact hk (hh ▸ he)
        rw [if_neg hk, if_neg hk, List.filter_cons_of_neg hpk]
    · rw [if_neg he]
      by_cases hk : (e.relType, e.relTarget) = k
      · subst hk
        have hpk : isRelKey (e.relType, e.relTarget) e = true := by
          simp [isRelKey]
        rw [List.filter_cons_of_pos hpk, ih, if_pos (List.mem_cons_self ..), if_neg he,
          List.filter_cons_of_pos hpk]
        simp
      · have hpk : ¬ isRelKey k e = true := by
          simp only [isRelKey, beq_iff_eq]
          exact hk
        rw [List.filter_cons_of_neg hpk, ih]
        by_cases hks : k ∈ seen
        · rw [if_pos (List.mem_cons_of_mem _ hks), if_pos hks]
        · have hknotin : k ∉ (e.relType, e.relTarget) :: seen := by
            simp only [List.mem_cons]
            rintro (rfl | hbad)
            · exact hk rfl
            · exact hks hbad
          rw [if_neg hknotin, if_neg hks, List.filter_cons_of_neg hpk]

theorem dedupRels_zero {l : List RelEntry} {seen : List (String × String)}
    (h : (dedupRels l seen).2 = 0) : (dedupRels l seen).1 = l := by
  induction l generalizing seen with
  | nil => simp [dedupRels]
  | cons e rest ih =>
    simp only [dedupRels] at h ⊢
    split at h
    · simp at h
    · next hmem =>
      rw [if_neg hmem]
      simp only at h ⊢
      rw [ih h]

theorem dedupRelsAll_fst (rs : List (String × Part (List RelEntry))) :
    (dedupRelsAll rs).1 = rs.map relFileResult := by
  induction rs with
  | nil => rfl
  | cons pr rest ih =>
    obtain ⟨path, filePart⟩ := pr
    simp only [dedupRelsAll, List.map_cons]
    cases filePart with
    | absent => simp [relFileResult, ih]
    | unparseable => simp [relFileResult, ih]
    | parsed l =>
      dsimp only
      by_cases hd : (dedupRels l []).2 > 0
      · rw [if_pos hd]
        simp only [relFileResult]
        rw [if_pos hd, ih]
      · rw [if_neg hd]
        simp only [relFileResult]
        rw [if_neg hd, ih]

theorem dedupRelsAll_count (rs : List (String × Part (List RelEntry))) :
    (dedupRelsAll rs).2.1 = relsRemovedTotal rs := by
  induction rs with
  | nil => rfl
  | cons pr rest ih =>
    obtain ⟨path, filePart⟩ := pr
    simp only [dedupRelsAll, relsRemovedTotal, List.map_cons, List.sum_cons]
    cases filePart with
    | absent => simpa [relsRemovedTotal] using ih
    | unparseable => simpa [relsRemovedTotal] using ih
    | parsed l =>
      dsimp only
      by_cases hd : (dedupRels l []).2 > 0
      · rw [if_pos hd]
        simp only at ih ⊢
        rw [ih]
        rfl
      · rw [if_neg hd]
        simp only at ih ⊢
        rw [ih]
        have h0 : (dedupRels l []).2 = 0 := by omega
        rw [h0]
        simp [relsRemovedTotal]

/-! ### Lemmas: the comments-part mirror -/

theorem renumberComments_nil (c : CommentsXml) : renumberComments c [] = c := by
  unfold renumberComments
  have h : ∀ ce ∈ c.comments, (match parseInt ce.wId with
      | some o =>
        match lookupRemap [] o with
        | some n => { ce with wId := intStr n }
        | none => ce
      | none => ce) = id ce := by
    intro ce _
    cases parseInt ce.wId <;> rfl
  rw [List.map_congr_left h, List.map_id]

theorem changeRemap_isSome_iff {annots : List AnnotNode} {s o : Int} :
    (lookupRemap (changeRemap annots s).1 o).isSome = true ↔
      o ∈ idSet annots CHANGE_TAGS ∧
        (o ∈ idSet annots BOOKMARK_TAGS ∨ o ∈ idSet annots COMMENT_DOC_TAGS) := by
  rw [lookupRemap_isSome_iff]
  constructor
  · rintro ⟨n, hn⟩
    have hm : (o, n) ∈ (assignFresh
        (fun i => (collectWIds annots BOOKMARK_TAGS).contains i ||
          (collectWIds annots COMMENT_DOC_TAGS).contains i)
        (List.insertionSort (· ≤ ·) (collectWIds annots CHANGE_TAGS).dedup) s).1 := by
      simpa [changeRemap] using hn
    obtain ⟨h1, h2, _, _⟩ := assignFresh_mem _ hm
    refine ⟨?_, ?_⟩
    · rw [idSet, List.mem_toFinset]
      exact mem_sortedDedup.mp h1
    · have h2b : ((collectWIds annots BOOKMARK_TAGS).contains o ||
          (collectWIds annots COMMENT_DOC_TAGS).contains o) = true := h2
      rcases Bool.or_eq_true_iff.mp h2b with hb | hc
      · exact Or.inl (by rw [idSet, List.mem_toFinset]; exact contains_iff_mem.mp hb)
      · exact Or.inr (by rw [idSet, List.mem_toFinset]; exact contains_iff_mem.mp hc)
  · rintro ⟨hch, hbc⟩
    rw [idSet, List.mem_toFinset] at hch
    have hcoll : ((collectWIds annots BOOKMARK_TAGS).contains o ||
        (collectWIds annots COMMENT_DOC_TAGS).contains o) = true := by
      rcases hbc with hb | hc
      · rw [idSet, List.mem_toFinset] at hb
        simp [hb]
      · rw [idSet, List.mem_toFinset] at hc
        simp [hc]
    obtain ⟨n, hn⟩ := assignFresh_exists_mem
      (fun i => (collectWIds annots BOOKMARK_TAGS).contains i ||
        (collectWIds annots COMMENT_DOC_TAGS).contains i)
      s (mem_sortedDedup.mpr hch) hcoll
    exact ⟨n, by simpa [changeRemap] using hn⟩

/-- In the collision branch, the state of `comments.xml` on disk after the
phase is fully determined by the comment remap: tracked-change ids are never
mirrored into it. -/
theorem deconflictIds_comments_collision (p : Package) (d : DocumentXml) (c : CommentsXml)
    (i0 : Int) (rest : List Int)
    (hd : p.document = Part.parsed d) (hc : p.comments = Part.parsed c)
    (hall : collectWIds d.annots (BOOKMARK_TAGS ++ COMMENT_DOC_TAGS ++ CHANGE_TAGS) = i0 :: rest)
    (hcol : hasCollision d.annots = true) :
    (deconflictIds p).1.comments =
      Part.parsed (renumberComments c (commentRemap d.annots (listMax rest i0 + 1)).1) := by
  unfold deconflictIds
  rw [hd]
  dsimp only
  rw [hall]
  dsimp only
  rw [if_pos hcol]
  dsimp only
  rw [hc]
  dsimp only
  by_cases hemp : (commentRemap d.annots (listMax rest i0 + 1)).1.isEmpty = true
  · rw [if_pos hemp]
    rw [List.isEmpty_iff.mp hemp, renumberComments_nil]
  · rw [if_neg hemp]

/-! ### Lemmas: shapes of the orphan-cleanup passes -/

theorem cleanExtended_fst (valid : List String) (l : List CommentExEntry) :
    (cleanExtended valid l).1 =
      l.filter (fun e => ¬(e.paraId ≠ "" ∧ e.paraId ∉ valid)) := by
  induction l with
  | nil => rfl
  | cons e rest ih =>
    simp only [cleanExtended]
    by_cases h1 : e.paraId ≠ "" ∧ e.paraId ∉ valid
    · rw [if_pos h1, List.filter_cons_of_neg (by simp [h1]), ih]
    · rw [if_neg h1]
      by_cases h2 : e.paraId ≠ "" ∧ e.paraId ∈ valid
      · rw [if_pos h2]
        by_cases h3 : e.durableId ≠ ""
        · rw [if_pos h3, List.filter_cons_of_pos (by simp [h1]), ih]
        · rw [if_neg h3, List.filter_cons_of_pos (by simp [h1]), ih]
      · rw [if_neg h2, List.filter_cons_of_pos (by simp [h1]), ih]

theorem cleanExtended_count (valid : List String) (l : List CommentExEntry) :
    (cleanExtended valid l).2.1 =
      (l.filter (fun e => e.paraId ≠ "" ∧ e.paraId ∉ valid)).length := by
  induction l with
  | nil => rfl
  | cons e rest ih =>
    simp only [cleanExtended]
    by_cases h1 : e.paraId ≠ "" ∧ e.paraId ∉ valid
    · rw [if_pos h1, List.filter_cons_of_pos (by simp [h1])]
      simp only [List.length_cons]
      rw [ih]
    · rw [if_neg h1]
      by_cases h2 : e.paraId ≠ "" ∧ e.paraId ∈ valid
      · rw [if_pos h2]
        by_cases h3 : e.durableId ≠ ""
        · rw [if_pos h3, List.filter_cons_of_neg (by simp [h1]), ih]
        · rw [if_neg h3, List.filter_cons_of_neg (by simp [h1]), ih]
      · rw [if_neg h2, List.filter_cons_of_neg (by simp [h1]), ih]

theorem cleanExtended_durables (valid : List String) (l : List CommentExEntry) :
    (cleanExtended valid l).2.2 =
      l.filterMap (fun e =>
        if e.paraId ≠ "" ∧ e.paraId ∈ valid ∧ e.durableId ≠ "" then some e.durableId
        else none) := by
  induction l with
  | nil => rfl
  | cons e rest ih =>
    simp only [cleanExtended, List.filterMap_cons]
    by_cases h1 : e.paraId ≠ "" ∧ e.paraId ∉ valid
    · rw [if_pos h1]
      rw [if_neg (by rintro ⟨-, hv, -⟩; exact h1.2 hv)]
      exact ih
    · rw [if_neg h1]
      by_cases h2 : e.paraId ≠ "" ∧ e.paraId ∈ valid
      · rw [if_pos h2]
        by_cases h3 : e.durableId ≠ ""
        · rw [if_pos h3, if_pos ⟨h2.1, h2.2, h3⟩]
          simp only
          rw [ih]
        · rw [if_neg h3, if_neg (by rintro ⟨-, -, hd⟩; exact h3 hd)]
          exact ih
      · have hempty : ¬(e.paraId ≠ "" ∧ e.paraId ∈ valid ∧ e.durableId ≠ "") := by
          rintro ⟨hne, hv, -⟩
          rcases Classical.em (e.paraId ∈ valid) with hin | hout
          · exact h2 ⟨hne, hin⟩
          · exact h1 ⟨hne, hout⟩
        rw [if_neg h2, if_neg hempty]
        exact ih

theorem cleanIds_fst (valid : List String) (l : List CommentIdEntry) :
    (cleanIds valid l).1 =
      l.filter (fun e => ¬(e.paraId ≠ "" ∧ e.paraId ∉ valid)) := by
  induction l with
  | nil => rfl
  | cons e rest ih =>
    simp only [cleanIds]
    by_cases h1 : e.paraId ≠ "" ∧ e.paraId ∉ valid
    · rw [if_pos h1, List.filter_cons_of_neg (by simp [h1]), ih]
    · rw [if_neg h1, List.filter_cons_of_pos (by simp [h1]), ih]

theorem cleanExtensible_fst (vd : List String) (l : List CommentExtEntry) :
    (cleanExtensible vd l).1 =
      l.filter (fun e => ¬(e.durableId ≠ "" ∧ vd ≠ [] ∧ e.durableId ∉ vd)) := by
  induction l with
  | nil => rfl
  | cons e rest ih =>
    simp only [cleanExtensible]
    by_cases h1 : e.durableId ≠ "" ∧ vd ≠ [] ∧ e.durableId ∉ vd
    · rw [if_pos h1, List.filter_cons_of_neg (by simp [h1]), ih]
    · rw [if_neg h1, List.filter_cons_of_pos (by simp [h1]), ih]

theorem cleanExtensible_zero {vd : List String} {l : List CommentExtEntry}
    (h : (cleanExtensible vd l).2 = 0) : (cleanExtensible vd l).1 = l := by
  induction l with
  | nil => rfl
  | cons e rest ih =>
    simp only [cleanExtensible] at h ⊢
    split at h
    · simp at h
    · next h1 =>
      rw [if_neg h1]
      simp only at h ⊢
      rw [ih h]

theorem extensibleStep_fst (vd : List String) (lx : List CommentExtEntry) :
    (extensibleStep vd (Part.parsed lx)).1 =
      Part.parsed (lx.filter (fun e => ¬(e.durableId ≠ "" ∧ vd ≠ [] ∧ e.durableId ∉ vd))) := by
  unfold extensibleStep
  dsimp only
  split
  · rw [cleanExtensible_fst]
  · next h =>
    have h0 : (cleanExtensible vd lx).2 = 0 := by omega
    rw [← cleanExtensible_fst, cleanExtensible_zero h0]

theorem cleanExtended_zero {valid : List String} {l : List CommentExEntry}
    (h : (cleanExtended valid l).2.1 = 0) : (cleanExtended valid l).1 = l := by
  induction l with
  | nil => rfl
  | cons e rest ih =>
    simp only [cleanExtended] at h ⊢
    split at h
    · simp at h
    · next h1 =>
      rw [if_neg h1]
      split at h
      · next h2 =>
        rw [if_pos h2]
        split at h
        · next h3 =>
          rw [if_pos h3]
          simp only at h ⊢
          rw [ih h]
        · next h3 =>
          rw [if_neg h3]
          simp only at h ⊢
          rw [ih h]
      · next h2 =>
        rw [if_neg h2]
        simp only at h ⊢
        rw [ih h]

theorem cleanIds_zero {valid : List String} {l : List CommentIdEntry}
    (h : (cleanIds valid l).2 = 0) : (cleanIds valid l).1 = l := by
  induction l with
  | nil => rfl
  | cons e rest ih =>
    simp only [cleanIds] at h ⊢
    split at h
    · simp at h
    · next h1 =>
      rw [if_neg h1]
      simp only at h ⊢
      rw [ih h]

theorem extendedStep_fst (valid : List String) (l : List CommentExEntry) :
    (extendedStep valid (Part.parsed l)).1 =
      Part.parsed (l.filter (fun e => ¬(e.paraId ≠ "" ∧ e.paraId ∉ valid))) := by
  unfold extendedStep
  dsimp only
  split
  · rw [cleanExtended_fst]
  · next h =>
    have h0 : (cleanExtended valid l).2.1 = 0 := by omega
    rw [← cleanExtended_fst, cleanExtended_zero h0]

theorem idsStep_fst (valid : List String) (l : List CommentIdEntry) :
    (idsStep valid (Part.parsed l)).1 =
      Part.parsed (l.filter (fun e => ¬(e.paraId ≠ "" ∧ e.paraId ∉ valid))) := by
  unfold idsStep
  dsimp only
  split
  · rw [cleanIds_fst]
  · next h =>
    have h0 : (cleanIds valid l).2 = 0 := by omega
    rw [← cleanIds_fst, cleanIds_zero h0]

/-- The durable set handed to the `commentsExtensible` pass is exactly the
set of durable ids that resolve to a live comment through `commentsExtended`. -/
theorem liveDurableIds_eq_step (p : Package) (c : CommentsXml)
    (hc : p.comments = Part.parsed c) :
    liveDurableIds p = (extendedStep (validParaIds c) p.commentsExtended).2.2.1 := by
  cases he : p.commentsExtended with
  | absent =>
    unfold liveDurableIds extendedStep
    rw [hc, he]
  | unparseable =>
    unfold liveDurableIds extendedStep
    rw [hc, he]
  | parsed l0 =>
    unfold liveDurableIds extendedStep
    rw [hc, he]
    dsimp only
    split
    · rw [cleanExtended_durables]
    · rw [cleanExtended_durables]

/-- The three metadata parts after the orphan phase, in terms of the three
per-part steps. -/
theorem cleanOrphanedComments_parts (p : Package) (c : CommentsXml)
    (hc : p.comments = Part.parsed c) :
    (cleanOrphanedComments p).1.commentsExtended =
      (extendedStep (validParaIds c) p.commentsExtended).1 ∧
    (cleanOrphanedComments p).1.commentsIds =
      (idsStep (validParaIds c) p.commentsIds).1 ∧
    (cleanOrphanedComments p).1.commentsExtensible =
      (extensibleStep (extendedStep (validParaIds c) p.commentsExtended).2.2.1
        p.commentsExtensible).1 := by
  unfold cleanOrphanedComments
  rw [hc]
  exact ⟨rfl, rfl, rfl⟩

/-! ### Lemmas: write-if-dirty -/

theorem map_eq_self_mem {α : Type} {f : α → α} {l : List α} (h : l.map f = l) :
    ∀ a ∈ l, f a = a := by
  induction l with
  | nil => intro a ha; simp at ha
  | cons b rest ih =>
    simp only [List.map_cons, List.cons.injEq] at h
    intro a ha
    rcases List.mem_cons.mp ha with rfl | hmem
    · exact h.1
    · exact ih h.2 a hmem

theorem collectWIds_mem_node {annots : List AnnotNode} {tags : List WTag} {o : Int}
    (h : o ∈ collectWIds annots tags) :
    ∃ a ∈ annots, a.tag ∈ tags ∧ parseInt a.wId = some o := by
  unfold collectWIds at h
  rw [List.mem_flatMap] at h
  obtain ⟨t, ht, hmem⟩ := h
  rw [List.mem_filterMap] at hmem
  obtain ⟨a, ha, hpa⟩ := hmem
  have hm := List.mem_filter.mp ha
  refine ⟨a, hm.1, ?_, hpa⟩
  have : a.tag = t := by simpa using hm.2
  exact this ▸ ht

theorem dedupRelsAll_writes_mem {rs : List (String × Part (List RelEntry))} {path : String}
    (h : PartFile.rel path ∈ (dedupRelsAll rs).2.2) :
    ∃ l, (path, Part.parsed l) ∈ rs ∧ (dedupRels l []).2 > 0 := by
  induction rs with
  | nil => simp [dedupRelsAll] at h
  | cons pr rest ih =>
    obtain ⟨p0, filePart⟩ := pr
    simp only [dedupRelsAll] at h
    cases filePart with
    | absent =>
      obtain ⟨l, h1, h2⟩ := ih h
      exact ⟨l, List.mem_cons_of_mem _ h1, h2⟩
    | unparseable =>
      obtain ⟨l, h1, h2⟩ := ih h
      exact ⟨l, List.mem_cons_of_mem _ h1, h2⟩
    | parsed l0 =>
      dsimp only at h
      by_cases hd : (dedupRels l0 []).2 > 0
      · rw [if_pos hd] at h
        dsimp only at h
        rcases List.mem_cons.mp h with heq | hmem
        · obtain rfl : path = p0 := by simpa using heq
          exact ⟨l0, List.mem_cons_self .., hd⟩
        · obtain ⟨l, h1, h2⟩ := ih hmem
          exact ⟨l, List.mem_cons_of_mem _ h1, h2⟩
      · rw [if_neg hd] at h
        dsimp only at h
        obtain ⟨l, h1, h2⟩ := ih h
        exact ⟨l, List.mem_cons_of_mem _ h1, h2⟩

theorem dedupRelsAll_writes_shape {rs : List (String × Part (List RelEntry))} {f : PartFile}
    (h : f ∈ (dedupRelsAll rs).2.2) :
    ∃ path, f = PartFile.rel path ∧ path ∈ rs.map Prod.fst := by
  induction rs with
  | nil => simp [dedupRelsAll] at h
  | cons pr rest ih =>
    obtain ⟨p0, filePart⟩ := pr
    simp only [dedupRelsAll] at h
    cases filePart with
    | absent =>
      obtain ⟨path, h1, h2⟩ := ih h
      exact ⟨path, h1, by simp [h2]⟩
    | unparseable =>
      obtain ⟨path, h1, h2⟩ := ih h
      exact ⟨path, h1, by simp [h2]⟩
    | parsed l0 =>
      dsimp only at h
      by_cases hd : (dedupRels l0 []).2 > 0
      · rw [if_pos hd] at h
        dsimp only at h
        rcases List.mem_cons.mp h with rfl | hmem
        · exact ⟨p0, rfl, by simp⟩
        · obtain ⟨path, h1, h2⟩ := ih hmem
          exact ⟨path, h1, by simp [h2]⟩
      · rw [if_neg hd] at h
        dsimp only at h
        obtain ⟨path, h1, h2⟩ := ih h
        exact ⟨path, h1, by simp [h2]⟩

theorem dedupRelsAll_writes_nodup {rs : List (String × Part (List RelEntry))}
    (h : (rs.map Prod.fst).Nodup) : (dedupRelsAll rs).2.2.Nodup := by
  induction rs with
  | nil => simp [dedupRelsAll]
  | cons pr rest ih =>
    obtain ⟨p0, filePart⟩ := pr
    simp only [List.map_cons, List.nodup_cons] at h
    obtain ⟨hp0, hrest⟩ := h
    have hnotin : PartFile.rel p0 ∉ (dedupRelsAll rest).2.2 := by
      intro hmem
      obtain ⟨path, heq, hpath⟩ := dedupRelsAll_writes_shape hmem
      obtain rfl : p0 = path := by simpa using heq
      exact hp0 hpath
    simp only [dedupRelsAll]
    cases filePart with
    | absent => exact ih hrest
    | unparseable => exact ih hrest
    | parsed l0 =>
      dsimp only
      by_cases hd : (dedupRels l0 []).2 > 0
      · rw [if_pos hd]
        dsimp only
        exact List.nodup_cons.mpr ⟨hnotin, ih hrest⟩
      · rw [if_neg hd]
        dsimp only
        exact ih hrest

theorem cleanIds_count (valid : List String) (l : List CommentIdEntry) :
    (cleanIds valid l).2 =
      (l.filter (fun e => e.paraId ≠ "" ∧ e.paraId ∉ valid)).length := by
  induction l with
  | nil => rfl
  | cons e rest ih =>
    simp only [cleanIds]
    by_cases h1 : e.paraId ≠ "" ∧ e.paraId ∉ valid
    · rw [if_pos h1, List.filter_cons_of_pos (by simp [h1])]
      simp only [List.length_cons]
      rw [ih]
    · rw [if_neg h1, List.filter_cons_of_neg (by simp [h1]), ih]

theorem cleanExtensible_count (vd : List String) (l : List CommentExtEntry) :
    (cleanExtensible vd l).2 =
      (l.filter (fun e => e.durableId ≠ "" ∧ vd ≠ [] ∧ e.durableId ∉ vd)).length := by
  induction l with
  | nil => rfl
  | cons e rest ih =>
    simp only [cleanExtensible]
    by_cases h1 : e.durableId ≠ "" ∧ vd ≠ [] ∧ e.durableId ∉ vd
    · rw [if_pos h1, List.filter_cons_of_pos (by simp [h1])]
      simp only [List.length_cons]
      rw [ih]
    · rw [if_neg h1, List.filter_cons_of_neg (by simp [h1]), ih]

theorem dedupCt_changed {l : List CtEntry} (h : (dedupCt l [] []).2 > 0) :
    (dedupCt l [] []).1 ≠ l := by
  intro heq
  have hlen := dedupCt_count_add_length l [] []
  rw [heq] at hlen
  omega

theorem dedupRels_changed {l : List RelEntry} (h : (dedupRels l []).2 > 0) :
    (dedupRels l []).1 ≠ l := by
  intro heq
  have hlen := dedupRels_count_add_length l []
  rw [heq] at hlen
  omega

theorem commentRemap_isSome_iff {annots : List AnnotNode} {s o : Int} :
    (lookupRemap (commentRemap annots s).1 o).isSome = true ↔
      o ∈ idSet annots COMMENT_DOC_TAGS ∧
        (o ∈ idSet annots BOOKMARK_TAGS ∨ o ∈ idSet annots CHANGE_TAGS) := by
  rw [lookupRemap_isSome_iff]
  constructor
  · rintro ⟨n, hn⟩
    have hm : (o, n) ∈ (assignFresh
        (fun i => (collectWIds annots BOOKMARK_TAGS).contains i ||
          (collectWIds annots CHANGE_TAGS).contains i)
        (List.insertionSort (· ≤ ·) (collectWIds annots COMMENT_DOC_TAGS).dedup) s).1 := by
      simpa [commentRemap] using hn
    obtain ⟨h1, h2, _, _⟩ := assignFresh_mem _ hm
    refine ⟨?_, ?_⟩
    · rw [idSet, List.mem_toFinset]
      exact mem_sortedDedup.mp h1
    · have h2b : ((collectWIds annots BOOKMARK_TAGS).contains o ||
          (collectWIds annots CHANGE_TAGS).contains o) = true := h2
      rcases Bool.or_eq_true_iff.mp h2b with hb | hc
      · exact Or.inl (by rw [idSet, List.mem_toFinset]; exact contains_iff_mem.mp hb)
      · exact Or.inr (by rw [idSet, List.mem_toFinset]; exact contains_iff_mem.mp hc)
  · rintro ⟨hcm, hbc⟩
    rw [idSet, List.mem_toFinset] at hcm
    have hcoll : ((collectWIds annots BOOKMARK_TAGS).contains o ||
        (collectWIds annots CHANGE_TAGS).contains o) = true := by
      rcases hbc with hb | hc
      · rw [idSet, List.mem_toFinset] at hb
        simp [hb]
      · rw [idSet, List.mem_toFinset] at hc
        simp [hc]
    obtain ⟨n, hn⟩ := assignFresh_exists_mem
      (fun i => (collectWIds annots BOOKMARK_TAGS).contains i ||
        (collectWIds annots CHANGE_TAGS).contains i)
      s (mem_sortedDedup.mpr hcm) hcoll
    exact ⟨n, by simpa [commentRemap] using hn⟩

/-- When a collision exists, the deconfliction really rewrites the document:
the part written back differs from the one read. -/
theorem deconflictIds_doc_changed (p : Package) (d : DocumentXml)
    (i0 : Int) (rest : List Int)
    (hd : p.document = Part.parsed d)
    (hall : collectWIds d.annots (BOOKMARK_TAGS ++ COMMENT_DOC_TAGS ++ CHANGE_TAGS) = i0 :: rest)
    (hcol : hasCollision d.annots = true) :
    (deconflictIds p).1.document ≠ p.document := by
  have hout : (deconflictIds p).1.document = Part.parsed
      ⟨(d.annots.map (renumberAnnot COMMENT_DOC_TAGS
          (commentRemap d.annots (listMax rest i0 + 1)).1)).map
        (renumberAnnot CHANGE_TAGS
          (changeRemap d.annots (commentRemap d.annots (listMax rest i0 + 1)).2).1),
        d.wts⟩ := by
    unfold deconflictIds
    rw [hd]
    dsimp only
    rw [hall]
    dsimp only
    rw [if_pos hcol]
  rw [hout, hd]
  intro heq
  have hann : (d.annots.map (renumberAnnot COMMENT_DOC_TAGS
      (commentRemap d.annots (listMax rest i0 + 1)).1)).map
        (renumberAnnot CHANGE_TAGS
          (changeRemap d.annots (commentRemap d.annots (listMax rest i0 + 1)).2).1) =
      d.annots := by
    have hinj : (⟨(d.annots.map (renumberAnnot COMMENT_DOC_TAGS
        (commentRemap d.annots (listMax rest i0 + 1)).1)).map
          (renumberAnnot CHANGE_TAGS
            (changeRemap d.annots (commentRemap d.annots (listMax rest i0 + 1)).2).1),
          d.wts⟩ : DocumentXml) = d := by
      exact Part.parsed.inj heq
    exact congrArg DocumentXml.annots hinj
  rw [List.map_map] at hann
  have hpoint := map_eq_self_mem hann
  obtain ⟨hbM, hcM, hchM⟩ := collect_all_le_max hall
  have hw : (∃ o, o ∈ collectWIds d.annots COMMENT_DOC_TAGS ∧
      (o ∈ idSet d.annots BOOKMARK_TAGS ∨ o ∈ idSet d.annots CHANGE_TAGS)) ∨
    (∃ o, o ∈ collectWIds d.annots CHANGE_TAGS ∧
      (o ∈ idSet d.annots BOOKMARK_TAGS ∨ o ∈ idSet d.annots COMMENT_DOC_TAGS)) := by
    simp only [hasCollision, Bool.or_eq_true_iff, List.any_eq_true] at hcol
    rcases hcol with (⟨o, ho, hb⟩ | ⟨o, ho, hb⟩) | ⟨o, ho, hb⟩
    · refine Or.inl ⟨o, ho, Or.inl ?_⟩
      rw [idSet, List.mem_toFinset]
      exact contains_iff_mem.mp hb
    · refine Or.inr ⟨o, ho, Or.inl ?_⟩
      rw [idSet, List.mem_toFinset]
      exact contains_iff_mem.mp hb
    · refine Or.inr ⟨o, ho, Or.inr ?_⟩
      rw [idSet, List.mem_toFinset]
      exact contains_iff_mem.mp hb
  rcases hw with ⟨o, ho, hbc⟩ | ⟨o, ho, hbc⟩
  · have hsome : (lookupRemap (commentRemap d.annots (listMax rest i0 + 1)).1 o).isSome = true :=
      commentRemap_isSome_iff.mpr ⟨by rw [idSet, List.mem_toFinset]; exact ho, hbc⟩
    obtain ⟨n0, hn0⟩ := Option.isSome_iff_exists.mp hsome
    have hbound : listMax rest i0 + 1 ≤ n0 :=
      (commentRemap_mem (lookupRemap_eq_some_imp hn0)).1
    obtain ⟨a, haa, hat, hap⟩ := collectWIds_mem_node ho
    have hf1 : renumberAnnot COMMENT_DOC_TAGS
        (commentRemap d.annots (listMax rest i0 + 1)).1 a = { a with wId := intStr n0 } := by
      unfold renumberAnnot
      rw [if_pos hat, hap]
      dsimp only
      rw [hn0]
    have hnotch : a.tag ∉ CHANGE_TAGS := by
      have hdisj : ∀ t ∈ COMMENT_DOC_TAGS, t ∉ CHANGE_TAGS := by decide
      exact hdisj a.tag hat
    have hfix := hpoint a haa
    rw [Function.comp_apply, hf1,
      renumberAnnot_of_not_mem (show ({ a with wId := intStr n0 } : AnnotNode).tag ∉ CHANGE_TAGS
        from hnotch) _] at hfix
    have hid : intStr n0 = a.wId := congrArg AnnotNode.wId hfix
    have hpar : parseInt a.wId = some n0 := by
      rw [← hid, parseInt_intStr]
    rw [hap] at hpar
    have : o = n0 := by simpa using hpar
    have hoM := hcM o ho
    omega
  · have hsome : (lookupRemap (changeRemap d.annots
        (commentRemap d.annots (listMax rest i0 + 1)).2).1 o).isSome = true :=
      changeRemap_isSome_iff.mpr ⟨by rw [idSet, List.mem_toFinset]; exact ho, hbc⟩
    obtain ⟨n0, hn0⟩ := Option.isSome_iff_exists.mp hsome
    have hbound : (commentRemap d.annots (listMax rest i0 + 1)).2 ≤ n0 :=
      (changeRemap_mem (lookupRemap_eq_some_imp hn0)).1
    have hbound2 : listMax rest i0 + 1 ≤ (commentRemap d.annots (listMax rest i0 + 1)).2 :=
      commentRemap_le_snd d.annots (listMax rest i0 + 1)
    obtain ⟨a, haa, hat, hap⟩ := collectWIds_mem_node ho
    have hnotc : a.tag ∉ COMMENT_DOC_TAGS := by
      have hdisj : ∀ t ∈ CHANGE_TAGS, t ∉ COMMENT_DOC_TAGS := by decide
      exact hdisj a.tag hat
    have hf1 : renumberAnnot COMMENT_DOC_TAGS
        (commentRemap d.annots (listMax rest i0 + 1)).1 a = a :=
      renumberAnnot_of_not_mem hnotc _
    have hf2 : renumberAnnot CHANGE_TAGS
        (changeRemap d.annots (commentRemap d.annots (listMax rest i0 + 1)).2).1 a =
        { a with wId := intStr n0 } := by
      unfold renumberAnnot
      rw [if_pos hat, hap]
      dsimp only
      rw [hn0]
    have hfix := hpoint a haa
    rw [Function.comp_apply, hf1, hf2] at hfix
    have hid : intStr n0 = a.wId := congrArg AnnotNode.wId hfix
    have hpar : parseInt a.wId = some n0 := by
      rw [← hid, parseInt_intStr]
    rw [hap] at hpar
    have : o = n0 := by simpa using hpar
    have hoM := hchM o ho
    omega

theorem cleanExtended_changed {valid : List String} {l : List CommentExEntry}
    (h : (cleanExtended valid l).2.1 > 0) : (cleanExtended valid l).1 ≠ l := by
  intro heq
  rw [cleanExtended_fst] at heq
  rw [cleanExtended_count] at h
  have hnil : l.filter (fun e => e.paraId ≠ "" ∧ e.paraId ∉ valid) = [] := by
    rw [List.filter_eq_nil_iff]
    intro e he
    have hall := List.filter_eq_self.mp heq e he
    simp at hall ⊢
    tauto
  rw [hnil] at h
  simp at h

theorem cleanIds_changed {valid : List String} {l : List CommentIdEntry}
    (h : (cleanIds valid l).2 > 0) : (cleanIds valid l).1 ≠ l := by
  intro heq
  rw [cleanIds_fst] at heq
  rw [cleanIds_count] at h
  have hnil : l.filter (fun e => e.paraId ≠ "" ∧ e.paraId ∉ valid) = [] := by
    rw [List.filter_eq_nil_iff]
    intro e he
    have hall := List.filter_eq_self.mp heq e he
    simp at hall ⊢
    tauto
  rw [hnil] at h
  simp at h

theorem cleanExtensible_changed {vd : List String} {l : List CommentExtEntry}
    (h : (cleanExtensible vd l).2 > 0) : (cleanExtensible vd l).1 ≠ l := by
  intro heq
  rw [cleanExtensible_fst] at heq
  rw [cleanExtensible_count] at h
  have hnil : l.filter (fun e => e.durableId ≠ "" ∧ vd ≠ [] ∧ e.durableId ∉ vd) = [] := by
    rw [List.filter_eq_nil_iff]
    intro e he
    have hall := List.filter_eq_self.mp heq e he
    simp at hall ⊢
    tauto
  rw [hnil] at h
  simp at h

theorem contentTypesStep_writes (part : Part (List CtEntry)) :
    (contentTypesStep part).2.2 = [] ∨ (contentTypesStep part).2.2 = [PartFile.contentTypes] := by
  unfold contentTypesStep
  split
  · dsimp only
    split
    · exact Or.inr rfl
    · exact Or.inl rfl
  · exact Or.inl rfl

theorem contentTypesStep_dirty {part : Part (List CtEntry)}
    (h : PartFile.contentTypes ∈ (contentTypesStep part).2.2) :
    (contentTypesStep part).1 ≠ part := by
  cases part with
  | absent => simp [contentTypesStep] at h
  | unparseable => simp [contentTypesStep] at h
  | parsed l =>
    unfold contentTypesStep at h ⊢
    dsimp only at h ⊢
    by_cases hr : (dedupCt l [] []).2 > 0
    · rw [if_pos hr] at h ⊢
      intro heq
      exact dedupCt_changed hr (Part.parsed.inj heq)
    · rw [if_neg hr] at h
      simp at h

theorem extendedStep_writes (valid : List String) (part : Part (List CommentExEntry)) :
    (extendedStep valid part).2.2.2 = [] ∨
      (extendedStep valid part).2.2.2 = [PartFile.commentsExtended] := by
  unfold extendedStep
  split
  · dsimp only
    split
    · exact Or.inr rfl
    · exact Or.inl rfl
  · exact Or.inl rfl

theorem idsStep_writes (valid : List String) (part : Part (List CommentIdEntry)) :
    (idsStep valid part).2.2 = [] ∨ (idsStep valid part).2.2 = [PartFile.commentsIds] := by
  unfold idsStep
  split
  · dsimp only
    split
    · exact Or.inr rfl
    · exact Or.inl rfl
  · exact Or.inl rfl

theorem extensibleStep_writes (vd : List String) (part : Part (List CommentExtEntry)) :
    (extensibleStep vd part).2.2 = [] ∨
      (extensibleStep vd part).2.2 = [PartFile.commentsExtensible] := by
  unfold extensibleStep
  split
  · dsimp only
    split
    · exact Or.inr rfl
    · exact Or.inl rfl
  · exact Or.inl rfl

theorem extendedStep_dirty {valid : List String} {part : Part (List CommentExEntry)}
    (h : PartFile.commentsExtended ∈ (extendedStep valid part).2.2.2) :
    (extendedStep valid part).1 ≠ part := by
  cases part with
  | absent => simp [extendedStep] at h
  | unparseable => simp [extendedStep] at h
  | parsed l =>
    unfold extendedStep at h ⊢
    dsimp only at h ⊢
    by_cases hr : (cleanExtended valid l).2.1 > 0
    · rw [if_pos hr] at h ⊢
      intro heq
      exact cleanExtended_changed hr (Part.parsed.inj heq)
    · rw [if_neg hr] at h
      simp at h

theorem idsStep_dirty {valid : List String} {part : Part (List CommentIdEntry)}
    (h : PartFile.commentsIds ∈ (idsStep valid part).2.2) :
    (idsStep valid part).1 ≠ part := by
  cases part with
  | absent => simp [idsStep] at h
  | unparseable => simp [idsStep] at h
  | parsed l =>
    unfold idsStep at h ⊢
    dsimp only at h ⊢
    by_cases hr : (cleanIds valid l).2 > 0
    · rw [if_pos hr] at h ⊢
      intro heq
      exact cleanIds_changed hr (Part.parsed.inj heq)
    · rw [if_neg hr] at h
      simp at h

theorem extensibleStep_dirty {vd : List String} {part : Part (List CommentExtEntry)}
    (h : PartFile.commentsExtensible ∈ (extensibleStep vd part).2.2) :
    (extensibleStep vd part).1 ≠ part := by
  cases part with
  | absent => simp [extensibleStep] at h
  | unparseable => simp [extensibleStep] at h
  | parsed l =>
    unfold extensibleStep at h ⊢
    dsimp only at h ⊢
    by_cases hr : (cleanExtensible vd l).2 > 0
    · rw [if_pos hr] at h ⊢
      intro heq
      exact cleanExtensible_changed hr (Part.parsed.inj heq)
    · rw [if_neg hr] at h
      simp at h

theorem addSpace_ne_of_needsSpace {wt : WtNode} (h : needsSpace wt = true) :
    addSpace wt ≠ wt := by
  unfold addSpace
  rw [if_pos h]
  intro heq
  have hx : "preserve" = wt.xmlSpace := congrArg WtNode.xmlSpace heq
  unfold needsSpace at h
  rw [Bool.and_eq_true] at h
  have h3 := h.2
  rw [← hx] at h3
  exact absurd h3 (by decide)

theorem fixXmlSpace_dirty (p : Package)
    (h : PartFile.document ∈ (fixXmlSpace p).2.2) :
    (fixXmlSpace p).1.document ≠ p.document := by
  cases hdoc : p.document with
  | absent =>
    unfold fixXmlSpace at h
    rw [hdoc] at h
    simp at h
  | unparseable =>
    unfold fixXmlSpace at h
    rw [hdoc] at h
    simp at h
  | parsed d =>
    unfold fixXmlSpace at h ⊢
    rw [hdoc] at h ⊢
    dsimp only at h ⊢
    by_cases hr : (d.wts.filter needsSpace).length > 0
    · rw [if_pos hr] at h ⊢
      dsimp only
      intro heq
      have hwts : d.wts.map addSpace = d.wts :=
        congrArg DocumentXml.wts (Part.parsed.inj heq)
      obtain ⟨wt, hwt⟩ := List.exists_mem_of_length_pos hr
      rw [List.mem_filter] at hwt
      exact addSpace_ne_of_needsSpace hwt.2 (map_eq_self_mem hwts wt hwt.1)
    · rw [if_neg hr] at h
      simp at h

theorem deconflictIds_writes_nodup (p : Package) : (deconflictIds p).2.2.Nodup := by
  unfold deconflictIds
  split
  · simp
  · simp
  · split
    · simp
    · split
      · dsimp only
        split <;> decide
      · simp

theorem deconflictIds_doc_dirty (p : Package)
    (h : PartFile.document ∈ (deconflictIds p).2.2) :
    (deconflictIds p).1.document ≠ p.document := by
  cases hdoc : p.document with
  | absent =>
    unfold deconflictIds at h
    rw [hdoc] at h
    simp at h
  | unparseable =>
    unfold deconflictIds at h
    rw [hdoc] at h
    simp at h
  | parsed d =>
    cases hall : collectWIds d.annots (BOOKMARK_TAGS ++ COMMENT_DOC_TAGS ++ CHANGE_TAGS) with
    | nil =>
      unfold deconflictIds at h
      rw [hdoc] at h
      dsimp only at h
      rw [hall] at h
      simp at h
    | cons i0 rest =>
      by_cases hcol : hasCollision d.annots = true
      · rw [← hdoc]
        exact deconflictIds_doc_changed p d i0 rest hdoc hall hcol
      · unfold deconflictIds at h
        rw [hdoc] at h
        dsimp only at h
        rw [hall] at h
        dsimp only at h
        rw [if_neg hcol] at h
        simp at h

theorem dedupRelationships_writes_nodup (p : Package)
    (h : (p.rels.map Prod.fst).Nodup) : (dedupRelationships p).2.2.Nodup := by
  unfold dedupRelationships
  dsimp only
  rcases contentTypesStep_writes p.contentTypes with hct | hct <;> rw [hct]
  · simpa using dedupRelsAll_writes_nodup h
  · rw [List.singleton_append]
    refine List.nodup_cons.mpr ⟨?_, dedupRelsAll_writes_nodup h⟩
    intro hmem
    obtain ⟨path, hpath, _⟩ := dedupRelsAll_writes_shape hmem
    simp at hpath

theorem dedupRelationships_ct_dirty (p : Package)
    (h : PartFile.contentTypes ∈ (dedupRelationships p).2.2) :
    (dedupRelationships p).1.contentTypes ≠ p.contentTypes := by
  unfold dedupRelationships at h ⊢
  dsimp only at h ⊢
  rcases List.mem_append.mp h with hct | hrel
  · exact contentTypesStep_dirty hct
  · obtain ⟨path, hpath, _⟩ := dedupRelsAll_writes_shape hrel
    simp at hpath

theorem dedupRelationships_rel_dirty (p : Package) (path : String)
    (h : PartFile.rel path ∈ (dedupRelationships p).2.2) :
    ∃ l, (path, Part.parsed l) ∈ p.rels ∧
      (path, Part.parsed (dedupRels l []).1) ∈ (dedupRelationships p).1.rels ∧
      (dedupRels l []).1 ≠ l := by
  unfold dedupRelationships at h ⊢
  dsimp only at h ⊢
  rcases List.mem_append.mp h with hct | hrel
  · rcases contentTypesStep_writes p.contentTypes with hc | hc <;> rw [hc] at hct <;>
      simp at hct
  · obtain ⟨l, hmem, hpos⟩ := dedupRelsAll_writes_mem hrel
    refine ⟨l, hmem, ?_, dedupRels_changed hpos⟩
    rw [dedupRelsAll_fst]
    have hres : relFileResult (path, Part.parsed l) = (path, Part.parsed (dedupRels l []).1) := by
      unfold relFileResult
      dsimp only
      rw [if_pos hpos]
    rw [← hres]
    exact List.mem_map_of_mem relFileResult hmem

theorem cleanOrphanedComments_writes_nodup (p : Package) :
    (cleanOrphanedComments p).2.2.Nodup := by
  cases hcm : p.comments with
  | absent =>
    unfold cleanOrphanedComments
    rw [hcm]
    simp
  | unparseable =>
    unfold cleanOrphanedComments
    rw [hcm]
    simp
  | parsed c =>
    unfold cleanOrphanedComments
    rw [hcm]
    dsimp only
    rcases extendedStep_writes (validParaIds c) p.commentsExtended with h1 | h1 <;>
    rcases idsStep_writes (validParaIds c) p.commentsIds with h2 | h2 <;>
    rcases extensibleStep_writes
      ((extendedStep (validParaIds c) p.commentsExtended).2.2.1) p.commentsExtensible
      with h3 | h3 <;>
    rw [h1, h2, h3] <;> decide

theorem cleanOrphanedComments_ext_dirty (p : Package)
    (h : PartFile.commentsExtended ∈ (cleanOrphanedComments p).2.2) :
    (cleanOrphanedComments p).1.commentsExtended ≠ p.commentsExtended := by
  cases hcm : p.comments with
  | absent =>
    unfold cleanOrphanedComments at h
    rw [hcm] at h
    simp at h
  | unparseable =>
    unfold cleanOrphanedComments at h
    rw [hcm] at h
    simp at h
  | parsed c =>
    rw [(cleanOrphanedComments_parts p c hcm).1]
    unfold cleanOrphanedComments at h
    rw [hcm] at h
    dsimp only at h
    rcases List.mem_append.mp h with h12 | h3
    · rcases List.mem_append.mp h12 with h1 | h2
      · exact extendedStep_dirty h1
      · rcases idsStep_writes (validParaIds c) p.commentsIds with hw | hw <;>
          rw [hw] at h2 <;> simp at h2
    · rcases extensibleStep_writes
        ((extendedStep (validParaIds c) p.commentsExtended).2.2.1) p.commentsExtensible
        with hw | hw <;> rw [hw] at h3 <;> simp at h3

theorem cleanOrphanedComments_ids_dirty (p : Package)
    (h : PartFile.commentsIds ∈ (cleanOrphanedComments p).2.2) :
    (cleanOrphanedComments p).1.commentsIds ≠ p.commentsIds := by
  cases hcm : p.comments with
  | absent =>
    unfold cleanOrphanedComments at h
    rw [hcm] at h
    simp at h
  | unparseable =>
    unfold cleanOrphanedComments at h
    rw [hcm] at h
    simp at h
  | parsed c =>
    rw [(cleanOrphanedComments_parts p c hcm).2.1]
    unfold cleanOrphanedComments at h
    rw [hcm] at h
    dsimp only at h
    rcases List.mem_append.mp h with h12 | h3
    · rcases List.mem_append.mp h12 with h1 | h2
      · rcases extendedStep_writes (validParaIds c) p.commentsExtended with hw | hw <;>
          rw [hw] at h1 <;> simp at h1
      · exact idsStep_dirty h2
    · rcases extensibleStep_writes
        ((extendedStep (validParaIds c) p.commentsExtended).2.2.1) p.commentsExtensible
        with hw | hw <;> rw [hw] at h3 <;> simp at h3

theorem cleanOrphanedComments_extensible_dirty (p : Package)
    (h : PartFile.commentsExtensible ∈ (cleanOrphanedComments p).2.2) :
    (cleanOrphanedComments p).1.commentsExtensible ≠ p.commentsExtensible := by
  cases hcm : p.comments with
  | absent =>
    unfold cleanOrphanedComments at h
    rw [hcm] at h
    simp at h
  | unparseable =>
    unfold cleanOrphanedComments at h
    rw [hcm] at h
    simp at h
  | parsed c =>
    rw [(cleanOrphanedComments_parts p c hcm).2.2]
    unfold cleanOrphanedComments at h
    rw [hcm] at h
    dsimp only at h
    rcases List.mem_append.mp h with h12 | h3
    · rcases List.mem_append.mp h12 with h1 | h2
      · rcases extendedStep_writes (validParaIds c) p.commentsExtended with hw | hw <;>
          rw [hw] at h1 <;> simp at h1
      · rcases idsStep_writes (validParaIds c) p.commentsIds with hw | hw <;>
          rw [hw] at h2 <;> simp at h2
    · exact extensibleStep_dirty h3

theorem fixXmlSpace_writes_nodup (p : Package) : (fixXmlSpace p).2.2.Nodup := by
  unfold fixXmlSpace
  split
  · simp
  · simp
  · dsimp only
    split
    · simp
    · simp

/-! ### Last helper lemmas for the claim statements -/

theorem runFixup_eq_zero_of_steps (q : Package)
    (h1 : deconflictIds q = (q, ⟨0, 0⟩, []))
    (h2 : dedupRelationships q = (q, ⟨0, 0⟩, []))
    (h3 : cleanOrphanedComments q = (q, ⟨0⟩, []))
    (h4 : fixXmlSpace q = (q, ⟨0⟩, [])) :
    runFixup q = (q, FixupSummary.zero) := by
  unfold runFixup
  rw [h1]
  dsimp only
  rw [h2]
  dsimp only
  rw [h3]
  dsimp only
  rw [h4]
  rfl

theorem contentTypesStep_fst (l : List CtEntry) :
    (contentTypesStep (Part.parsed l)).1 = Part.parsed (dedupCt l [] []).1 := by
  unfold contentTypesStep
  dsimp only
  split
  · rfl
  · next h =>
    rw [dedupCt_zero (show (dedupCt l [] []).2 = 0 by omega)]

theorem contentTypesStep_count (l : List CtEntry) :
    (contentTypesStep (Part.parsed l)).2.1 = (dedupCt l [] []).2 := by
  unfold contentTypesStep
  dsimp only
  split
  · rfl
  · next h =>
    dsimp only
    omega

theorem relFileResult_parsed (path : String) (l : List RelEntry) :
    relFileResult (path, Part.parsed l) = (path, Part.parsed (dedupRels l []).1) := by
  unfold relFileResult
  dsimp only
  split
  · rfl
  · next h =>
    rw [dedupRels_zero (show (dedupRels l []).2 = 0 by omega)]

theorem collectWIds_singleton_bad {a : AnnotNode} (hbad : parseInt a.wId = none)
    (tags : List WTag) : collectWIds [a] tags = [] := by
  unfold collectWIds
  induction tags with
  | nil => rfl
  | cons t ts ih =>
    rw [List.flatMap_cons, ih, List.append_nil]
    unfold byTag
    by_cases ht : a.tag = t
    · simp [List.filter_cons, List.filterMap_cons, ht, hbad]
    · simp [List.filter_cons, ht]

/-! ### The claims -/

/-- C1: after the full repair pipeline, no identifier value is shared across
two different annotation kinds — the bookmark, comment and tracked-change id
sets of the resulting document are pairwise disjoint (sharing within the
bookmark kind, as in a bookmarkStart/bookmarkEnd pair, is untouched by this
statement). -/
theorem claim_C1 (p : Package) :
    Disjoint (kindIds (runFixup p).1 BOOKMARK_TAGS)
      (kindIds (runFixup p).1 COMMENT_DOC_TAGS) ∧
    Disjoint (kindIds (runFixup p).1 BOOKMARK_TAGS)
      (kindIds (runFixup p).1 CHANGE_TAGS) ∧
    Disjoint (kindIds (runFixup p).1 COMMENT_DOC_TAGS)
      (kindIds (runFixup p).1 CHANGE_TAGS) := by
  simpa only [runFixup_kindIds] using deconflictIds_disjoint p

/-- C2: running the full repair pipeline twice in succession produces the
all-zero change summary on the second run — every per-phase counter and the
grand total are zero, for every input package. -/
theorem claim_C2 (p : Package) :
    (runFixup (runFixup p).1).2 = FixupSummary.zero ∧
    (runFixup (runFixup p).1).2.total = 0 := by
  have hz : runFixup (runFixup p).1 = ((runFixup p).1, FixupSummary.zero) :=
    runFixup_eq_zero_of_steps (runFixup p).1
      (runFixup_second_deconflict p) (runFixup_second_dedup p)
      (runFixup_second_orphan p) (runFixup_second_space p)
  rw [hz]
  exact ⟨rfl, rfl⟩

/-- C3, as the code actually behaves (amended): when a collision triggers the
deconfliction pass, a change-kind id receives a fresh id precisely when it
collides with the ORIGINAL bookmark-kind or the ORIGINAL comment-kind id set
(not the comment-kind set as it stands after the comment renumbering); every
fresh change id lies strictly above the original maximum id; and the comments
part is rewritten only through the comment remap (tracked-change ids are
never mirrored into it). -/
theorem claim_C3 (p : Package) (d : DocumentXml) (c : CommentsXml)
    (i0 : Int) (rest : List Int)
    (hd : p.document = Part.parsed d) (hc : p.comments = Part.parsed c)
    (hall : collectWIds d.annots (BOOKMARK_TAGS ++ COMMENT_DOC_TAGS ++ CHANGE_TAGS) = i0 :: rest)
    (hcol : hasCollision d.annots = true) :
    (∀ o : Int,
      (lookupRemap (changeRemap d.annots
          (commentRemap d.annots (listMax rest i0 + 1)).2).1 o).isSome = true ↔
        o ∈ idSet d.annots CHANGE_TAGS ∧
          (o ∈ idSet d.annots BOOKMARK_TAGS ∨ o ∈ idSet d.annots COMMENT_DOC_TAGS)) ∧
    (∀ o n : Int,
      lookupRemap (changeRemap d.annots
          (commentRemap d.annots (listMax rest i0 + 1)).2).1 o = some n →
        listMax rest i0 < n) ∧
    (deconflictIds p).1.comments =
      Part.parsed (renumberComments c (commentRemap d.annots (listMax rest i0 + 1)).1) := by
  refine ⟨fun o => changeRemap_isSome_iff, fun o n hn => ?_,
    deconflictIds_comments_collision p d c i0 rest hd hc hall hcol⟩
  have h1 := (changeRemap_mem (lookupRemap_eq_some_imp hn)).1
  have h2 := commentRemap_le_snd d.annots (listMax rest i0 + 1)
  omega

/-- Witness for C3 on a concrete collision package. -/
theorem claim_C3_witness :
    (deconflictIds clashPkgWithComments).1.comments =
      Part.parsed (renumberComments ⟨[]⟩
        (commentRemap clashDoc.annots (listMax [5] 5 + 1)).1) :=
  (claim_C3 clashPkgWithComments clashDoc ⟨[]⟩ 5 [5] rfl rfl (by decide) (by decide)).2.2

/-- Counterexample to C3 as stated: on `clashPkg` the comment id 5 is
renumbered to 6, after which the comment-kind set `{6}` is disjoint from the
change id 5 and the bookmark-kind set is empty — yet the change id is
renumbered (to 7) anyway, because the code tests change ids against the
ORIGINAL comment-kind set. -/
theorem claim_C3_counterexample :
    (deconflictIds clashPkg).1.document =
      Part.parsed ⟨[⟨.commentRangeStart, "6"⟩, ⟨.wIns, "7"⟩], []⟩ ∧
    collectWIds (docAnnots (deconflictIds clashPkg).1) BOOKMARK_TAGS = [] ∧
    (5 : Int) ∉ collectWIds (docAnnots (deconflictIds clashPkg).1) COMMENT_DOC_TAGS ∧
    (deconflictIds clashPkg).2.1.changesRenumbered = 1 := by
  decide

/-- C4, as the code actually behaves (amended): after the orphan cleanup, a
surviving commentsExtended or commentsIds entry with a non-empty paraId
resolves to a live comment paragraph; a surviving commentsExtensible entry
with a non-empty durableId resolves to a live comment ONLY under the extra
hypothesis that the valid-durableId set is non-empty — when it is empty the
pass keeps unresolvable entries. -/
theorem claim_C4 (p : Package) (c : CommentsXml)
    (hc : p.comments = Part.parsed c) :
    (∀ l, (cleanOrphanedComments p).1.commentsExtended = Part.parsed l →
      ∀ e ∈ l, e.paraId ≠ "" → e.paraId ∈ validParaIds c) ∧
    (∀ l, (cleanOrphanedComments p).1.commentsIds = Part.parsed l →
      ∀ e ∈ l, e.paraId ≠ "" → e.paraId ∈ validParaIds c) ∧
    (∀ l, (cleanOrphanedComments p).1.commentsExtensible = Part.parsed l →
      liveDurableIds p ≠ [] →
      ∀ e ∈ l, e.durableId ≠ "" → e.durableId ∈ liveDurableIds p) := by
  obtain ⟨hp1, hp2, hp3⟩ := cleanOrphanedComments_parts p c hc
  have hvd := liveDurableIds_eq_step p c hc
  refine ⟨?_, ?_, ?_⟩
  · intro l hl e he hne
    rw [hp1] at hl
    cases hpart : p.commentsExtended with
    | absent =>
      rw [hpart] at hl
      simp [extendedStep] at hl
    | unparseable =>
      rw [hpart] at hl
      simp [extendedStep] at hl
    | parsed l0 =>
      rw [hpart, extendedStep_fst] at hl
      have hl2 : l0.filter (fun e => ¬(e.paraId ≠ "" ∧ e.paraId ∉ validParaIds c)) = l :=
        Part.parsed.inj hl
      rw [← hl2] at he
      rw [List.mem_filter] at he
      have h2 := he.2
      simp at h2
      tauto
  · intro l hl e he hne
    rw [hp2] at hl
    cases hpart : p.commentsIds with
    | absent =>
      rw [hpart] at hl
      simp [idsStep] at hl
    | unparseable =>
      rw [hpart] at hl
      simp [idsStep] at hl
    | parsed l0 =>
      rw [hpart, idsStep_fst] at hl
      have hl2 : l0.filter (fun e => ¬(e.paraId ≠ "" ∧ e.paraId ∉ validParaIds c)) = l :=
        Part.parsed.inj hl
      rw [← hl2] at he
      rw [List.mem_filter] at he
      have h2 := he.2
      simp at h2
      tauto
  · intro l hl hlive e he hne
    rw [hp3] at hl
    rw [hvd] at hlive ⊢
    cases hpart : p.commentsExtensible with
    | absent =>
      rw [hpart] at hl
      simp [extensibleStep] at hl
    | unparseable =>
      rw [hpart] at hl
      simp [extensibleStep] at hl
    | parsed l0 =>
      rw [hpart, extensibleStep_fst] at hl
      have hl2 : l0.filter (fun e =>
          ¬(e.durableId ≠ "" ∧
            (extendedStep (validParaIds c) p.commentsExtended).2.2.1 ≠ [] ∧
            e.durableId ∉ (extendedStep (validParaIds c) p.commentsExtended).2.2.1)) = l :=
        Part.parsed.inj hl
      rw [← hl2] at he
      rw [List.mem_filter] at he
      have h2 := he.2
      simp at h2
      tauto

/-- Witness for C4 on a package with one valid and one orphan extended entry. -/
theorem claim_C4_witness :
    (cleanOrphanedComments orphanCleanPkg).1.commentsExtended =
      Part.parsed [⟨"P1", "D1"⟩] ∧
    ∀ e ∈ [(⟨"P1", "D1"⟩ : CommentExEntry)], e.paraId ≠ "" →
      e.paraId ∈ validParaIds cClean := by
  have h := claim_C4 orphanCleanPkg cClean rfl
  exact ⟨by decide, h.1 [⟨"P1", "D1"⟩] (by decide)⟩

/-- Counterexample to C4 as stated: on `extensiblePkg` the orphan cleanup
keeps the commentsExtensible entry with durableId "D" although no live
comment resolves it (the live-durableId set of the repaired package is
empty), because the deletion is suppressed when the valid-durableId set is
empty. -/
theorem claim_C4_counterexample :
    (cleanOrphanedComments extensiblePkg).1.commentsExtensible =
      Part.parsed [⟨"D"⟩] ∧
    liveDurableIds (cleanOrphanedComments extensiblePkg).1 = [] := by
  decide

/-- C5: after the relationship-dedup phase the surviving content-types
manifest keeps, for every Override PartName and every Default Extension, and
every parseable `.rels` file keeps, for every (Type, Target) pair, exactly
the first node of that key in document order; the two removed-node counters
report the per-category removal counts. -/
theorem claim_C5 (p : Package) :
    (∀ l, p.contentTypes = Part.parsed l →
      (dedupRelationships p).1.contentTypes = Part.parsed (dedupCt l [] []).1 ∧
      (∀ k, (dedupCt l [] []).1.filter (isOverrideKey k) =
        (l.filter (isOverrideKey k)).take 1) ∧
      (∀ k, (dedupCt l [] []).1.filter (isDefaultKey k) =
        (l.filter (isDefaultKey k)).take 1) ∧
      (dedupCt l [] []).2 + (dedupCt l [] []).1.length = l.length ∧
      (dedupRelationships p).2.1.contentTypesRemoved = (dedupCt l [] []).2) ∧
    ((dedupRelationships p).1.rels = p.rels.map relFileResult ∧
      ∀ path l, (path, Part.parsed l) ∈ p.rels →
        (path, Part.parsed (dedupRels l []).1) ∈ (dedupRelationships p).1.rels ∧
        (∀ k, (dedupRels l []).1.filter (isRelKey k) =
          (l.filter (isRelKey k)).take 1) ∧
        (dedupRels l []).2 + (dedupRels l []).1.length = l.length) ∧
    (dedupRelationships p).2.1.relsRemoved = relsRemovedTotal p.rels := by
  refine ⟨?_, ⟨?_, ?_⟩, ?_⟩
  · intro l hl
    refine ⟨?_, ?_, ?_, dedupCt_count_add_length l [] [], ?_⟩
    · show (contentTypesStep p.contentTypes).1 = _
      rw [hl, contentTypesStep_fst]
    · intro k
      rw [dedupCt_filter_override]
      simp
    · intro k
      rw [dedupCt_filter_default]
      simp
    · show (contentTypesStep p.contentTypes).2.1 = _
      rw [hl, contentTypesStep_count]
  · show (dedupRelsAll p.rels).1 = _
    exact dedupRelsAll_fst p.rels
  · intro path l hmem
    refine ⟨?_, ?_, dedupRels_count_add_length l []⟩
    · show _ ∈ (dedupRelsAll p.rels).1
      rw [dedupRelsAll_fst, ← relFileResult_parsed]
      exact List.mem_map_of_mem relFileResult hmem
    · intro k
      rw [dedupRels_filter]
      simp
  · show (dedupRelsAll p.rels).2.1 = _
    exact dedupRelsAll_count p.rels

/-- Witness for C5 on a package with a duplicated Override and a duplicated
Relationship. -/
theorem claim_C5_witness :
    (dedupRelationships dupCtPkg).1.contentTypes =
      Part.parsed [CtEntry.override "a", CtEntry.dflt "x"] ∧
    ("word/_rels/document.xml.rels", Part.parsed [(⟨"T", "G"⟩ : RelEntry)]) ∈
      (dedupRelationships dupCtPkg).1.rels := by
  obtain ⟨h1, h2, h3⟩ := claim_C5 dupCtPkg
  constructor
  · rw [(h1 [CtEntry.override "a", CtEntry.override "a", CtEntry.dflt "x"] rfl).1]
    decide
  · have hm := (h2.2 "word/_rels/document.xml.rels"
      [⟨"T", "G"⟩, ⟨"T", "G"⟩] (by decide)).1
    have he : (dedupRels [(⟨"T", "G"⟩ : RelEntry), ⟨"T", "G"⟩] []).1 =
        [(⟨"T", "G"⟩ : RelEntry)] := by decide
    rw [he] at hm
    exact hm

/-- C6, as the code actually behaves (amended): the consistency check reports
exactly the four difference sets start-without-end, start-without-reference,
end-without-start and reference-without-start — an id that appears only among
range-ends (or only among references) is reported only for its missing start,
never for its other missing member. -/
theorem claim_C6 (p : Package) (d : DocumentXml) (hd : p.document = Part.parsed d) :
    ∀ v : String,
      (CIssue.startNoEnd v ∈ checkCommentConsistency p ↔
        v ∈ collectIdStrs d.annots .commentRangeStart ∧
          v ∉ collectIdStrs d.annots .commentRangeEnd) ∧
      (CIssue.startNoRef v ∈ checkCommentConsistency p ↔
        v ∈ collectIdStrs d.annots .commentRangeStart ∧
          v ∉ collectIdStrs d.annots .commentReference) ∧
      (CIssue.endNoStart v ∈ checkCommentConsistency p ↔
        v ∈ collectIdStrs d.annots .commentRangeEnd ∧
          v ∉ collectIdStrs d.annots .commentRangeStart) ∧
      (CIssue.refNoStart v ∈ checkCommentConsistency p ↔
        v ∈ collectIdStrs d.annots .commentReference ∧
          v ∉ collectIdStrs d.annots .commentRangeStart) := by
  intro v
  unfold checkCommentConsistency
  rw [hd]
  dsimp only
  refine ⟨?_, ?_, ?_, ?_⟩ <;>
    simp [List.mem_append, List.mem_filter, List.mem_dedup]

/-- Witness for C6: the lone range-end id of `endOnlyPkg` is reported as
end-without-start and not as start-without-end. -/
theorem claim_C6_witness :
    CIssue.endNoStart "1" ∈ checkCommentConsistency endOnlyPkg ∧
    CIssue.startNoEnd "1" ∉ checkCommentConsistency endOnlyPkg := by
  have h := claim_C6 endOnlyPkg ⟨[⟨.commentRangeEnd, "1"⟩], []⟩ rfl "1"
  exact ⟨h.2.2.1.mpr (by decide), fun hmem => absurd (h.1.mp hmem) (by decide)⟩

/-- Counterexample to C6 as stated: in `endOnlyPkg` the id "1" appears among
the range-ends, its reference member is missing, yet the only issue reported
is the missing start — the missing reference is not reported individually. -/
theorem claim_C6_counterexample :
    checkCommentConsistency endOnlyPkg = [CIssue.endNoStart "1"] ∧
    "1" ∈ collectIdStrs (docAnnots endOnlyPkg) .commentRangeEnd ∧
    collectIdStrs (docAnnots endOnlyPkg) .commentReference = [] := by
  decide

/-- C7: the orphan cleaner removes a commentsExtensible entry only when its
durableId is non-empty, the valid-durableId set is non-empty and the
durableId is not in that set; in particular with an empty valid-durableId set
the part survives unchanged. -/
theorem claim_C7 (p : Package) (c : CommentsXml) (lx : List CommentExtEntry)
    (hc : p.comments = Part.parsed c) (hx : p.commentsExtensible = Part.parsed lx) :
    (cleanOrphanedComments p).1.commentsExtensible =
      Part.parsed (lx.filter (fun e =>
        ¬(e.durableId ≠ "" ∧ liveDurableIds p ≠ [] ∧
          e.durableId ∉ liveDurableIds p))) ∧
    (liveDurableIds p = [] →
      (cleanOrphanedComments p).1.commentsExtensible = Part.parsed lx) := by
  have hp3 := (cleanOrphanedComments_parts p c hc).2.2
  have hvd := liveDurableIds_eq_step p c hc
  constructor
  · rw [hp3, hx, extensibleStep_fst, ← hvd]
  · intro hnil
    rw [hp3, hx, extensibleStep_fst, ← hvd, hnil]
    simp

/-- Witness for C7: with no live comment the extensible entry "D" survives. -/
theorem claim_C7_witness :
    (cleanOrphanedComments extensiblePkg).1.commentsExtensible =
      Part.parsed [(⟨"D"⟩ : CommentExtEntry)] := by
  have h := claim_C7 extensiblePkg ⟨[]⟩ [⟨"D"⟩] rfl rfl
  exact h.2 (by decide)

/-- C8, as the code actually behaves (amended): in every phase each part file
is written at most once (the per-phase write logs are duplicate-free, given
distinct `.rels` paths), and every written part actually changed — with one
exception: the deconfliction phase rewrites `comments.xml` whenever it parses
and the comment remap is non-empty, even when no comment node matched and its
content is unchanged. -/
theorem claim_C8 (p : Package) (hpaths : (p.rels.map Prod.fst).Nodup) :
    (deconflictIds p).2.2.Nodup ∧
    (dedupRelationships p).2.2.Nodup ∧
    (cleanOrphanedComments p).2.2.Nodup ∧
    (fixXmlSpace p).2.2.Nodup ∧
    (PartFile.document ∈ (deconflictIds p).2.2 →
      (deconflictIds p).1.document ≠ p.document) ∧
    (PartFile.contentTypes ∈ (dedupRelationships p).2.2 →
      (dedupRelationships p).1.contentTypes ≠ p.contentTypes) ∧
    (∀ path, PartFile.rel path ∈ (dedupRelationships p).2.2 →
      ∃ l, (path, Part.parsed l) ∈ p.rels ∧
        (path, Part.parsed (dedupRels l []).1) ∈ (dedupRelationships p).1.rels ∧
        (dedupRels l []).1 ≠ l) ∧
    (PartFile.commentsExtended ∈ (cleanOrphanedComments p).2.2 →
      (cleanOrphanedComments p).1.commentsExtended ≠ p.commentsExtended) ∧
    (PartFile.commentsIds ∈ (cleanOrphanedComments p).2.2 →
      (cleanOrphanedComments p).1.commentsIds ≠ p.commentsIds) ∧
    (PartFile.commentsExtensible ∈ (cleanOrphanedComments p).2.2 →
      (cleanOrphanedComments p).1.commentsExtensible ≠ p.commentsExtensible) ∧
    (PartFile.document ∈ (fixXmlSpace p).2.2 →
      (fixXmlSpace p).1.document ≠ p.document) :=
  ⟨deconflictIds_writes_nodup p, dedupRelationships_writes_nodup p hpaths,
   cleanOrphanedComments_writes_nodup p, fixXmlSpace_writes_nodup p,
   deconflictIds_doc_dirty p, dedupRelationships_ct_dirty p,
   fun path h => dedupRelationships_rel_dirty p path h,
   cleanOrphanedComments_ext_dirty p, cleanOrphanedComments_ids_dirty p,
   cleanOrphanedComments_extensible_dirty p, fixXmlSpace_dirty p⟩

/-- Witness for C8 on the collision package: `document.xml` is in the
deconfliction write log and the written document really changed. -/
theorem claim_C8_witness :
    (clashPkg.rels.map Prod.fst).Nodup ∧
    PartFile.document ∈ (deconflictIds clashPkg).2.2 ∧
    (deconflictIds clashPkg).1.document ≠ clashPkg.document := by
  have h := claim_C8 clashPkg (by decide)
  exact ⟨by decide, by decide, h.2.2.2.2.1 (by decide)⟩

/-- Counterexample to C8 as stated: on `clashPkgWithComments` the
deconfliction phase writes `comments.xml` back although the part did not
change (it holds no comment node, so the remap rewrote nothing in it). -/
theorem claim_C8_counterexample :
    PartFile.comments ∈ (deconflictIds clashPkgWithComments).2.2 ∧
    (deconflictIds clashPkgWithComments).1.comments = clashPkgWithComments.comments := by
  decide

/-- C9, as the code actually behaves (amended): an element whose id attribute
is missing or non-integer is excluded from the fixup's identifier index — it
is never counted and never rewritten, with no error — but the validator's
unique-id check does NOT use the same exclusion: it keys on the raw id
string and only skips missing ids, so a non-empty non-integer id enters its
index. -/
theorem claim_C9 (a : AnnotNode) (tags : List WTag) (m : List (Int × Int))
    (hbad : parseInt a.wId = none) :
    collectWIds [a] tags = [] ∧
    renumberAnnot tags m a = a ∧
    (a.wId ≠ "" → a.wId ∈ collectIdStrs [a] a.tag) := by
  refine ⟨collectWIds_singleton_bad hbad tags, ?_, ?_⟩
  · by_cases ht : a.tag ∈ tags
    · unfold renumberAnnot
      rw [if_pos ht, hbad]
    · exact renumberAnnot_of_not_mem ht m
  · intro hne
    unfold collectIdStrs byTag
    simp [hne]

/-- Witness for C9 on the non-integer id "abc". -/
theorem claim_C9_witness :
    collectWIds [(⟨.bookmarkStart, "abc"⟩ : AnnotNode)] ANNOTATION_TAGS = [] ∧
    renumberAnnot ANNOTATION_TAGS [] ⟨.bookmarkStart, "abc"⟩ =
      (⟨.bookmarkStart, "abc"⟩ : AnnotNode) ∧
    "abc" ∈ collectIdStrs [(⟨.bookmarkStart, "abc"⟩ : AnnotNode)] .bookmarkStart := by
  have h := claim_C9 ⟨.bookmarkStart, "abc"⟩ ANNOTATION_TAGS [] (by decide)
  exact ⟨h.1, h.2.1, h.2.2 (by decide)⟩

/-- Counterexample to C9 as stated: the id "abc" on a bookmark and a tracked
insertion is a no-op for the fixup's deconfliction (excluded from its index),
yet the validator's unique-id check reports it as a cross-kind collision —
the two passes do not use the same exclusion. -/
theorem claim_C9_counterexample :
    checkUniqueIds abcPkg = [("abc", [WTag.bookmarkStart, WTag.wIns])] ∧
    deconflictIds abcPkg = (abcPkg, ⟨0, 0⟩, []) := by
  decide

/-- C10: when `comments.xml` is absent or unparseable, the comment-artifact
cross-reference check reports nothing at all, whatever the extended-metadata
parts contain. -/
theorem claim_C10 (p : Package)
    (h : p.comments = Part.absent ∨ p.comments = Part.unparseable) :
    checkCommentArtifacts p = [] := by
  unfold checkCommentArtifacts
  rcases h with h | h <;> rw [h]

/-- Witness for C10: `comments.xml` is absent while `commentsExtended.xml`
holds an unresolvable entry, and no issue is reported. -/
theorem claim_C10_witness :
    (orphanNoCommentsPkg.comments = Part.absent ∨
      orphanNoCommentsPkg.comments = Part.unparseable) ∧
    orphanNoCommentsPkg.commentsExtended = Part.parsed [⟨"X", "DX"⟩] ∧
    checkCommentArtifacts orphanNoCommentsPkg = [] :=
  ⟨Or.inl rfl, rfl, claim_C10 orphanNoCommentsPkg (Or.inl rfl)⟩

end OoxmlRepair
